import Mathlib

set_option maxHeartbeats 1000000

/-!
Shallow embedding of `src/core/state-machine/src/overlayed_changes.rs`
(the overlayed change set of the state machine), together with proofs of
the specification's claims about it.

Rust `HashMap`s are modelled as association lists, `BTreeSet<u32>` as
`Finset Nat`, byte strings as `List Nat`, and machine integers as `Nat`
(no arithmetic overflow occurs in this module: lengths and indices only
grow by pushes).  Rust panics (out-of-bounds indexing) are modelled as
`none` results; the reachable-state invariants proved below show the
panicking branches are never taken by the public API.
-/

/-- Byte strings used as storage keys and values. -/
abbrev Bytes := List Nat

/-- State of a transaction layer (`TransactionState` in the source). -/
inductive TransactionState
  | Pending
  | TxPending
  | Prospective
  | Committed
  | Dropped
deriving DecidableEq, Repr

/-- Modelled from the spec: `crate::changes_trie::Configuration` lives outside
this repository; the spec says it is an abstract value comparable for equality,
and the source's tests build it from a digest interval and digest levels. -/
structure ChangesTrieConfig where
  digest_interval : Nat
  digest_levels : Nat
deriving DecidableEq, Repr

/-- Modelled from the spec: the external sentinel `NO_EXTRINSIC_INDEX`, "an
unsigned 32-bit value distinct from any valid extrinsic index" (`u32::MAX`
in the surrounding crate). -/
def NO_EXTRINSIC_INDEX : Nat := 4294967295

/-- Modelled from the spec: the reserved well-known key `EXTRINSIC_INDEX`, a
fixed byte string owned by an external crate (`b":extrinsic_index"`). -/
def EXTRINSIC_INDEX : Bytes :=
  [58, 101, 120, 116, 114, 105, 110, 115, 105, 99, 95, 105, 110, 100, 101, 120]

/-- Modelled from the spec: the abstract decode collaborator
`decode_u32(bytes) -> u32?` (`parity_codec::Decode` for `u32`): a 32-bit
little-endian read of the first four bytes, failing when fewer than four
bytes are present. -/
def decode_u32 : Bytes → Option Nat
  | a :: b :: c :: d :: _ => some (a + 256 * b + 65536 * c + 16777216 * d)
  | _ => none

/-- The storage value (`OverlayedValue` in the source): current value
(`none` means deleted) and the set of extrinsic indices that changed it. -/
structure OverlayedValue where
  value : Option Bytes
  extrinsics : Option (Finset Nat)
deriving DecidableEq

instance : Inhabited OverlayedValue := ⟨⟨none, none⟩⟩

/-- Size of the preallocated inline history per element
(`ALLOCATED_HISTORY` in the source). -/
def ALLOCATED_HISTORY : Nat := 2

/-- History of values (`History<V>` in the source): the current size, the two
statically allocated slots (the source's `static_content: [Option<(V, usize)>; 2]`,
modelled as two fields), and the dynamically allocated spill buffer. -/
structure History (V : Type) where
  length : Nat
  static0 : Option (V × Nat)
  static1 : Option (V × Nat)
  dyn_content : List (V × Nat)
deriving DecidableEq

/-- `Default for History` in the source. -/
def History.empty {V : Type} : History V := ⟨0, none, none, []⟩

instance {V : Type} : Inhabited (History V) := ⟨History.empty⟩

/-- Indexing (`impl Index for History`): an index of at least
`ALLOCATED_HISTORY` addresses the spill buffer at `index - ALLOCATED_HISTORY`;
a missing slot models the Rust panic as `none`. -/
def History.idx {V : Type} (h : History V) (index : Nat) : Option (V × Nat) :=
  if ALLOCATED_HISTORY ≤ index then h.dyn_content.get? (index - ALLOCATED_HISTORY)
  else if index = 0 then h.static0 else h.static1

/-- `History::truncate`: note that the source truncates `dyn_content` to
`index` elements (not `index - ALLOCATED_HISTORY`) and sets `length` to
`index` unconditionally. -/
def History.truncate {V : Type} (h : History V) (index : Nat) : History V :=
  if ALLOCATED_HISTORY ≤ index then
    { h with dyn_content := h.dyn_content.take index, length := index }
  else { h with length := index }

/-- `History::pop`: returns the popped entry together with the new history. -/
def History.pop {V : Type} (h : History V) : Option (V × Nat) × History V :=
  if ALLOCATED_HISTORY < h.length then
    (h.dyn_content.getLast?,
      { h with length := h.length - 1, dyn_content := h.dyn_content.dropLast })
  else if 0 < h.length then
    if h.length - 1 = 0 then
      (h.static0, { h with length := h.length - 1, static0 := none })
    else
      (h.static1, { h with length := h.length - 1, static1 := none })
  else (none, h)

/-- `History::push`. -/
def History.push {V : Type} (h : History V) (val : V) (tx_index : Nat) : History V :=
  if h.length < ALLOCATED_HISTORY then
    if h.length = 0 then { h with static0 := some (val, tx_index), length := h.length + 1 }
    else { h with static1 := some (val, tx_index), length := h.length + 1 }
  else { h with dyn_content := h.dyn_content ++ [(val, tx_index)], length := h.length + 1 }

/-- Downward scan of `History::get`: the loop index walks from `len` to `0`. -/
def History.getFrom {V : Type} (h : History V) (history : List TransactionState) :
    Nat → Option V
  | 0 => none
  | index + 1 =>
    match h.idx index with
    | none => none
    | some (v, history_index) =>
      match history.get? history_index with
      | none => none
      | some TransactionState.Dropped => h.getFrom history index
      | some _ => some v

/-- `History::get`: newest entry whose marker is not `Dropped`. -/
def History.get {V : Type} (h : History V) (history : List TransactionState) : Option V :=
  h.getFrom history h.length

/-- Downward scan of `History::get_mut`, popping `Dropped` tail entries;
returns the found `(value, history_index)` pair and the compacted history. -/
def History.getMutGo {V : Type} (history : List TransactionState) :
    Nat → History V → Option (V × Nat) × History V
  | 0, h => (none, h)
  | index + 1, h =>
    match h.idx index with
    | none => (none, h)
    | some (v, history_index) =>
      match history.get? history_index with
      | none => (none, h)
      | some TransactionState.Dropped => History.getMutGo history index (h.pop).2
      | some _ => (some (v, history_index), h)

/-- `History::get_mut`. -/
def History.get_mut {V : Type} (h : History V) (history : List TransactionState) :
    Option (V × Nat) × History V :=
  History.getMutGo history h.length h

/-- Write through the slot at `index` (the mutable borrow returned by
`get_mut`/`IndexMut` in the source). -/
def History.updateAt {V : Type} (h : History V) (index : Nat) (f : V × Nat → V × Nat) :
    History V :=
  if ALLOCATED_HISTORY ≤ index then
    { h with dyn_content :=
        match h.dyn_content.get? (index - ALLOCATED_HISTORY) with
        | some e => h.dyn_content.set (index - ALLOCATED_HISTORY) (f e)
        | none => h.dyn_content }
  else if index = 0 then { h with static0 := h.static0.map f }
  else { h with static1 := h.static1.map f }

/-- `History::set`: the in-place branch of the source writes through the
mutable borrow returned by `get_mut`, which refers to the tail slot of the
compacted history. -/
def History.set {V : Type} (h : History V) (history : List TransactionState) (val : V) :
    History V :=
  match h.get_mut history with
  | (some (_, index), h2) =>
    if index = history.length - 1 then h2.updateAt (h2.length - 1) (fun e => (val, e.2))
    else h2.push val (history.length - 1)
  | (none, h2) => h2.push val (history.length - 1)

/-- Downward scan of `History::into_committed`. -/
def History.intoGo {V : Type} (h : History V) (history : List TransactionState) :
    Nat → Option V
  | 0 => none
  | index + 1 =>
    match h.idx index with
    | none => none
    | some (_, history_index) =>
      match history.get? history_index with
      | some TransactionState.Committed => ((h.truncate (index + 1)).pop).1.map (fun e => e.1)
      | some _ => h.intoGo history index
      | none => none

/-- `History::into_committed`: consume the history, returning the value at
the newest entry whose marker is `Committed` via `truncate` and `pop`. -/
def History.into_committed {V : Type} (h : History V) (history : List TransactionState) :
    Option V :=
  h.intoGo history h.length

/-- `History::set_with_extrinsic_inner`. -/
def History.set_with_extrinsic_inner (h : History OverlayedValue)
    (history : List TransactionState) (val : Option Bytes) (extrinsic_index : Nat) :
    History OverlayedValue :=
  let state := history.length - 1
  match h.get_mut history with
  | (some (current, current_index), h2) =>
    if current_index = state then
      h2.updateAt (h2.length - 1) (fun e =>
        ({ value := val,
           extrinsics := some (insert extrinsic_index ((e.1).extrinsics.getD ∅)) }, e.2))
    else
      h2.push
        { value := val,
          extrinsics := some (insert extrinsic_index (current.extrinsics.getD ∅)) } state
  | (none, h2) =>
    h2.push
      { value := val, extrinsics := some (insert extrinsic_index (∅ : Finset Nat)) } state

/-- `History::set_with_extrinsic`. -/
def History.set_with_extrinsic (h : History OverlayedValue)
    (history : List TransactionState) (val : Option Bytes)
    (extrinsic_index : Option Nat) : History OverlayedValue :=
  match extrinsic_index with
  | some extrinsic => h.set_with_extrinsic_inner history val extrinsic
  | none => h.set history { value := val, extrinsics := none }

/-- Association-list model of the source's `HashMap` lookups. -/
def lookupA {α β : Type} [DecidableEq α] : List (α × β) → α → Option β
  | [], _ => none
  | (k, v) :: t, key => if key = k then some v else lookupA t key

/-- Model of `HashMap::entry(key).or_default()` followed by a mutation of the
entry: update in place when the key is present, insert otherwise. -/
def updEntry {α β : Type} [DecidableEq α] (m : List (α × β)) (key : α) (d : β)
    (f : β → β) : List (α × β) :=
  match m with
  | [] => [(key, f d)]
  | (k, v) :: t => if key = k then (k, f v) :: t else (k, v) :: updEntry t key d f

/-- The overlayed change set (`OverlayedChangeSet` in the source). -/
structure OverlayedChangeSet where
  history : List TransactionState
  top : List (Bytes × History OverlayedValue)
  children : List (Bytes × List (Bytes × History OverlayedValue))
deriving DecidableEq

/-- `Default for OverlayedChangeSet`. -/
def OverlayedChangeSet.default : OverlayedChangeSet :=
  ⟨[TransactionState.Pending], [], []⟩

/-- `OverlayedChangeSet::is_empty`. -/
def OverlayedChangeSet.is_empty (cs : OverlayedChangeSet) : Bool :=
  cs.top.isEmpty && cs.children.isEmpty

/-- Tail-to-head marker scan of `discard_prospective`, modelled as a recursion
over the reversed history: `Pending`, `TxPending` and `Prospective` become
`Dropped`, `Dropped` is skipped, and the scan stops at `Committed`. -/
def discardPGo : List TransactionState → List TransactionState
  | [] => []
  | TransactionState.Pending :: t => TransactionState.Dropped :: discardPGo t
  | TransactionState.TxPending :: t => TransactionState.Dropped :: discardPGo t
  | TransactionState.Prospective :: t => TransactionState.Dropped :: discardPGo t
  | TransactionState.Committed :: t => TransactionState.Committed :: t
  | TransactionState.Dropped :: t => TransactionState.Dropped :: discardPGo t

/-- Tail-to-head marker scan of `commit_prospective`. -/
def commitPGo : List TransactionState → List TransactionState
  | [] => []
  | TransactionState.Pending :: t => TransactionState.Committed :: commitPGo t
  | TransactionState.TxPending :: t => TransactionState.Committed :: commitPGo t
  | TransactionState.Prospective :: t => TransactionState.Committed :: commitPGo t
  | TransactionState.Committed :: t => TransactionState.Committed :: t
  | TransactionState.Dropped :: t => TransactionState.Dropped :: commitPGo t

/-- Tail-to-head marker scan of `discard_transaction`: the scan stops after
dropping a `TxPending`, or at a `Committed`. -/
def discardTGo : List TransactionState → List TransactionState
  | [] => []
  | TransactionState.Pending :: t => TransactionState.Dropped :: discardTGo t
  | TransactionState.TxPending :: t => TransactionState.Dropped :: t
  | TransactionState.Prospective :: t => TransactionState.Dropped :: discardTGo t
  | TransactionState.Committed :: t => TransactionState.Committed :: t
  | TransactionState.Dropped :: t => TransactionState.Dropped :: discardTGo t

/-- Tail-to-head marker scan of `commit_transaction`. -/
def commitTGo : List TransactionState → List TransactionState
  | [] => []
  | TransactionState.Pending :: t => TransactionState.Prospective :: commitTGo t
  | TransactionState.TxPending :: t => TransactionState.Prospective :: t
  | TransactionState.Prospective :: t => TransactionState.Prospective :: t
  | TransactionState.Committed :: t => TransactionState.Committed :: t
  | TransactionState.Dropped :: t => TransactionState.Dropped :: commitTGo t

/-- `OverlayedChangeSet::discard_prospective`. -/
def OverlayedChangeSet.discard_prospective (cs : OverlayedChangeSet) : OverlayedChangeSet :=
  { cs with history := (discardPGo cs.history.reverse).reverse ++ [TransactionState.Pending] }

/-- `OverlayedChangeSet::commit_prospective`. -/
def OverlayedChangeSet.commit_prospective (cs : OverlayedChangeSet) : OverlayedChangeSet :=
  { cs with history := (commitPGo cs.history.reverse).reverse ++ [TransactionState.Pending] }

/-- `OverlayedChangeSet::start_transaction`. -/
def OverlayedChangeSet.start_transaction (cs : OverlayedChangeSet) : OverlayedChangeSet :=
  { cs with history := cs.history ++ [TransactionState.TxPending] }

/-- `OverlayedChangeSet::discard_transaction`. -/
def OverlayedChangeSet.discard_transaction (cs : OverlayedChangeSet) : OverlayedChangeSet :=
  { cs with history := (discardTGo cs.history.reverse).reverse ++ [TransactionState.Pending] }

/-- `OverlayedChangeSet::commit_transaction`. -/
def OverlayedChangeSet.commit_transaction (cs : OverlayedChangeSet) : OverlayedChangeSet :=
  { cs with history := (commitTGo cs.history.reverse).reverse ++ [TransactionState.Pending] }

/-- The overlayed changes facade (`OverlayedChanges` in the source). -/
structure OverlayedChanges where
  changes : OverlayedChangeSet
  changes_trie_config : Option ChangesTrieConfig
deriving DecidableEq

/-- `Default for OverlayedChanges`. -/
def OverlayedChanges.default : OverlayedChanges := ⟨OverlayedChangeSet.default, none⟩

/-- `OverlayedChanges::is_empty`. -/
def OverlayedChanges.is_empty (o : OverlayedChanges) : Bool := o.changes.is_empty

/-- `OverlayedChanges::set_changes_trie_config`: the source mutates `self` and
returns a `bool`; modelled as returning the pair. -/
def OverlayedChanges.set_changes_trie_config (o : OverlayedChanges)
    (config : ChangesTrieConfig) : Bool × OverlayedChanges :=
  match o.changes_trie_config with
  | some old_config =>
    if old_config ≠ config then (false, o)
    else (true, { o with changes_trie_config := some config })
  | none => (true, { o with changes_trie_config := some config })

/-- `OverlayedChanges::storage`. -/
def OverlayedChanges.storage (o : OverlayedChanges) (key : Bytes) : Option (Option Bytes) :=
  match lookupA o.changes.top key with
  | some overlay_val =>
    match overlay_val.get o.changes.history with
    | some o_val => some o_val.value
    | none => none
  | none => none

/-- `OverlayedChanges::child_storage`. -/
def OverlayedChanges.child_storage (o : OverlayedChanges) (storage_key key : Bytes) :
    Option (Option Bytes) :=
  match lookupA o.changes.children storage_key with
  | some map =>
    match lookupA map key with
    | some overlay_val =>
      match overlay_val.get o.changes.history with
      | some o_val => some o_val.value
      | none => none
    | none => none
  | none => none

/-- `OverlayedChanges::extrinsic_index`. -/
def OverlayedChanges.extrinsic_index (o : OverlayedChanges) : Option Nat :=
  match o.changes_trie_config with
  | some _ =>
    some (((o.storage EXTRINSIC_INDEX).bind
      (fun idx => idx.bind (fun b => decode_u32 b))).getD NO_EXTRINSIC_INDEX)
  | none => none

/-- `OverlayedChanges::set_storage`. -/
def OverlayedChanges.set_storage (o : OverlayedChanges) (key : Bytes)
    (val : Option Bytes) : OverlayedChanges :=
  let ei := o.extrinsic_index
  { o with changes := { o.changes with
      top := updEntry o.changes.top key History.empty
        (fun entry => entry.set_with_extrinsic o.changes.history val ei) } }

/-- `OverlayedChanges::set_child_storage`. -/
def OverlayedChanges.set_child_storage (o : OverlayedChanges) (storage_key key : Bytes)
    (val : Option Bytes) : OverlayedChanges :=
  let ei := o.extrinsic_index
  { o with changes := { o.changes with
      children := updEntry o.changes.children storage_key []
        (fun map_entry => updEntry map_entry key History.empty
          (fun entry => entry.set_with_extrinsic o.changes.history val ei)) } }

/-- `OverlayedChanges::clear_child_storage`: writes a deletion tombstone on
every key currently present in the child map. -/
def OverlayedChanges.clear_child_storage (o : OverlayedChanges) (storage_key : Bytes) :
    OverlayedChanges :=
  let ei := o.extrinsic_index
  { o with changes := { o.changes with
      children := updEntry o.changes.children storage_key []
        (fun map_entry => map_entry.map (fun p =>
          (p.1, p.2.set_with_extrinsic o.changes.history none ei))) } }

/-- Bytes-wise starts-with test (`key.starts_with(prefix)` in the source). -/
def startsWith : Bytes → Bytes → Bool
  | [], _ => true
  | _ :: _, [] => false
  | p :: ps, k :: ks => if p = k then startsWith ps ks else false

/-- Models `OverlayedChanges::clear_prefix` (renamed here): every top key
starting with `pre` gets a deletion written at the current layer. -/
def OverlayedChanges.clearPrefixes (o : OverlayedChanges) (pre : Bytes) : OverlayedChanges :=
  let ei := o.extrinsic_index
  { o with changes := { o.changes with
      top := o.changes.top.map (fun p =>
        if startsWith pre p.1 then (p.1, p.2.set_with_extrinsic o.changes.history none ei)
        else p) } }

/-- `OverlayedChanges::discard_prospective`. -/
def OverlayedChanges.discard_prospective (o : OverlayedChanges) : OverlayedChanges :=
  { o with changes := o.changes.discard_prospective }

/-- `OverlayedChanges::commit_prospective`. -/
def OverlayedChanges.commit_prospective (o : OverlayedChanges) : OverlayedChanges :=
  { o with changes := o.changes.commit_prospective }

/-- `OverlayedChanges::start_transaction`. -/
def OverlayedChanges.start_transaction (o : OverlayedChanges) : OverlayedChanges :=
  { o with changes := o.changes.start_transaction }

/-- `OverlayedChanges::discard_transaction`. -/
def OverlayedChanges.discard_transaction (o : OverlayedChanges) : OverlayedChanges :=
  { o with changes := o.changes.discard_transaction }

/-- `OverlayedChanges::commit_transaction`. -/
def OverlayedChanges.commit_transaction (o : OverlayedChanges) : OverlayedChanges :=
  { o with changes := o.changes.commit_transaction }

/-- Top half of `OverlayedChanges::into_committed`: the committed `(key, value)`
pairs of the top map, in map order. -/
def OverlayedChanges.into_committed_top (o : OverlayedChanges) :
    List (Bytes × Option Bytes) :=
  o.changes.top.filterMap (fun p =>
    (p.2.into_committed o.changes.history).map (fun v => (p.1, v.value)))

/-- Children half of `OverlayedChanges::into_committed`. -/
def OverlayedChanges.into_committed_children (o : OverlayedChanges) :
    List (Bytes × List (Bytes × Option Bytes)) :=
  o.changes.children.map (fun c =>
    (c.1, c.2.filterMap (fun p =>
      (p.2.into_committed o.changes.history).map (fun v => (p.1, v.value)))))

/-- The public mutating operations of the overlay, as a syntax of operation
sequences used to describe reachable states. -/
inductive Op
  | setStorage (key : Bytes) (val : Option Bytes)
  | setChildStorage (storage_key key : Bytes) (val : Option Bytes)
  | clearChild (storage_key : Bytes)
  | clearPre (pre : Bytes)
  | startTx
  | commitTx
  | discardTx
  | commitPros
  | discardPros
  | setConfig (config : ChangesTrieConfig)

/-- Interpretation of one public operation. -/
def applyOp (o : OverlayedChanges) : Op → OverlayedChanges
  | Op.setStorage key val => o.set_storage key val
  | Op.setChildStorage sk key val => o.set_child_storage sk key val
  | Op.clearChild sk => o.clear_child_storage sk
  | Op.clearPre pre => o.clearPrefixes pre
  | Op.startTx => o.start_transaction
  | Op.commitTx => o.commit_transaction
  | Op.discardTx => o.discard_transaction
  | Op.commitPros => o.commit_prospective
  | Op.discardPros => o.discard_prospective
  | Op.setConfig config => (o.set_changes_trie_config config).2

/-- Interpretation of a sequence of public operations. -/
def applyOps (o : OverlayedChanges) (l : List Op) : OverlayedChanges :=
  l.foldl applyOp o

/-- The four write operations, as a separate syntax (used by the transaction
rollback claim, which quantifies over sequences of writes only). -/
inductive WOp
  | wSet (key : Bytes) (val : Option Bytes)
  | wSetChild (storage_key key : Bytes) (val : Option Bytes)
  | wClearChild (storage_key : Bytes)
  | wClearPre (pre : Bytes)

/-- Each write operation is one of the public operations. -/
def WOp.toOp : WOp → Op
  | WOp.wSet key val => Op.setStorage key val
  | WOp.wSetChild sk key val => Op.setChildStorage sk key val
  | WOp.wClearChild sk => Op.clearChild sk
  | WOp.wClearPre pre => Op.clearPre pre

/-- Interpretation of a sequence of write operations. -/
def applyWOps (o : OverlayedChanges) (l : List WOp) : OverlayedChanges :=
  l.foldl (fun s w => applyOp s w.toOp) o

/-!
Abstraction layer.

A well-formed `History` (as produced by the public API) represents a plain
list of `(value, history_index)` entries, oldest first.  The lemmas below
relate every `History` operation to a pure list-level counterpart; all
semantic reasoning afterwards happens on lists.
-/

/-- Well-formedness of the small-vector layout: the two inline slots hold the
first `min 2 length` entries and the spill buffer holds exactly the rest. -/
def History.wf {V : Type} (h : History V) : Prop :=
  (h.length = 0 ∧ h.dyn_content = []) ∨
  (∃ a, h.length = 1 ∧ h.static0 = some a ∧ h.dyn_content = []) ∨
  (∃ a b, 2 ≤ h.length ∧ h.static0 = some a ∧ h.static1 = some b ∧
    h.dyn_content.length + 2 = h.length)

/-- The abstract entry list of a history, oldest first. -/
def History.toList {V : Type} (h : History V) : List (V × Nat) :=
  (h.static0.toList ++ h.static1.toList).take h.length ++ h.dyn_content

theorem History.empty_wf {V : Type} : (History.empty : History V).wf :=
  Or.inl ⟨rfl, rfl⟩

theorem History.empty_toList {V : Type} : (History.empty : History V).toList = [] := rfl

theorem History.toList_zero {V : Type} (h : History V) (h0 : h.length = 0)
    (hd : h.dyn_content = []) : h.toList = [] := by
  simp [History.toList, h0, hd]

theorem History.toList_one {V : Type} (h : History V) (a : V × Nat)
    (h1 : h.length = 1) (ha : h.static0 = some a) (hd : h.dyn_content = []) :
    h.toList = [a] := by
  cases hb : h.static1 <;> simp [History.toList, h1, ha, hb, hd]

theorem History.toList_big {V : Type} (h : History V) (a b : V × Nat)
    (h2 : 2 ≤ h.length) (ha : h.static0 = some a) (hb : h.static1 = some b) :
    h.toList = a :: b :: h.dyn_content := by
  have ht : ([a, b] : List (V × Nat)).take h.length = [a, b] :=
    List.take_of_length_le (by simpa using h2)
  simp only [History.toList, ha, hb, Option.toList_some, List.singleton_append]
  rw [ht]
  rfl

theorem History.wf_toList_length {V : Type} (h : History V) (hw : h.wf) :
    h.toList.length = h.length := by
  rcases hw with ⟨h0, hd⟩ | ⟨a, h1, ha, hd⟩ | ⟨a, b, h2, ha, hb, hd⟩
  · simp [History.toList_zero h h0 hd, h0]
  · simp [History.toList_one h a h1 ha hd, h1]
  · simp [History.toList_big h a b h2 ha hb]; omega

theorem History.push_wf {V : Type} (h : History V) (hw : h.wf) (v : V) (i : Nat) :
    (h.push v i).wf := by
  rcases hw with ⟨h0, hd⟩ | ⟨a, h1, ha, hd⟩ | ⟨a, b, h2, ha, hb, hd⟩
  · exact Or.inr (Or.inl ⟨(v, i), by simp [History.push, ALLOCATED_HISTORY, h0, hd]⟩)
  · exact Or.inr (Or.inr ⟨a, (v, i), by simp [History.push, ALLOCATED_HISTORY, h1, ha, hd]⟩)
  · refine Or.inr (Or.inr ⟨a, b, ?_⟩)
    have hnot : ¬ h.length < 2 := by omega
    simp [History.push, ALLOCATED_HISTORY, hnot, ha, hb]
    omega

theorem History.push_toList {V : Type} (h : History V) (hw : h.wf) (v : V) (i : Nat) :
    (h.push v i).toList = h.toList ++ [(v, i)] := by
  rcases hw with ⟨h0, hd⟩ | ⟨a, h1, ha, hd⟩ | ⟨a, b, h2, ha, hb, hd⟩
  · rw [History.toList_zero h h0 hd]
    have : (h.push v i).length = 1 ∧ (h.push v i).static0 = some (v, i) ∧
        (h.push v i).dyn_content = [] := by
      simp [History.push, ALLOCATED_HISTORY, h0, hd]
    rw [History.toList_one _ (v, i) this.1 this.2.1 this.2.2]
    simp
  · rw [History.toList_one h a h1 ha hd]
    have : 2 ≤ (h.push v i).length ∧ (h.push v i).static0 = some a ∧
        (h.push v i).static1 = some (v, i) ∧ (h.push v i).dyn_content = [] := by
      simp [History.push, ALLOCATED_HISTORY, h1, ha, hd]
    rw [History.toList_big _ a (v, i) this.1 this.2.1 this.2.2.1, this.2.2.2]
    simp
  · rw [History.toList_big h a b h2 ha hb]
    have hnot : ¬ h.length < 2 := by omega
    have : 2 ≤ (h.push v i).length ∧ (h.push v i).static0 = some a ∧
        (h.push v i).static1 = some b ∧
        (h.push v i).dyn_content = h.dyn_content ++ [(v, i)] := by
      simp [History.push, ALLOCATED_HISTORY, hnot, ha, hb]
      omega
    rw [History.toList_big _ a b this.1 this.2.1 this.2.2.1, this.2.2.2]
    simp

theorem set_last_aux {α : Type} (L : List α) (e x : α) :
    (L ++ [e]).set L.length x = L ++ [x] := by
  induction L with
  | nil => rfl
  | cons hd t ih => simpa using ih

theorem History.pop_spec {V : Type} (h : History V) (hw : h.wf) :
    (h.pop).1 = h.toList.getLast? ∧ (h.pop).2.toList = h.toList.dropLast ∧ (h.pop).2.wf := by
  rcases hw with ⟨h0, hd⟩ | ⟨a, h1, ha, hd⟩ | ⟨a, b, h2, ha, hb, hd⟩
  · have hp : h.pop = (none, h) := by
      simp [History.pop, ALLOCATED_HISTORY, h0]
    rw [hp, History.toList_zero h h0 hd]
    exact ⟨rfl, by simp [History.toList_zero h h0 hd], Or.inl ⟨h0, hd⟩⟩
  · have hp : h.pop = (h.static0, { h with length := 0, static0 := none }) := by
      simp [History.pop, ALLOCATED_HISTORY, h1]
    rw [hp, History.toList_one h a h1 ha hd]
    refine ⟨by simp [ha], ?_, Or.inl ⟨rfl, hd⟩⟩
    have hz : ({ h with length := 0, static0 := none } : History V).toList = [] :=
      History.toList_zero _ rfl hd
    simpa using hz
  · by_cases hlen : h.length = 2
    · have hnl : ¬ (2 < h.length) := by omega
      have hp : h.pop = (h.static1, { h with length := 1, static1 := none }) := by
        simp [History.pop, ALLOCATED_HISTORY, hnl, hlen]
    -- with length = 2, the spill buffer is empty
      have hde : h.dyn_content = [] := by
        have := hd; rw [hlen] at this
        exact List.eq_nil_of_length_eq_zero (by omega)
      rw [hp, History.toList_big h a b h2 ha hb, hde]
      refine ⟨by simp [hb], ?_, Or.inr (Or.inl ⟨a, rfl, ha, rfl⟩)⟩
      have hz : ({ h with length := 1, static1 := none, dyn_content := [] } : History V).toList = [a] :=
        History.toList_one _ a rfl ha rfl
      simpa using hz
    · have hgt : 2 < h.length := by omega
      have hp : h.pop = (h.dyn_content.getLast?,
          { h with length := h.length - 1, dyn_content := h.dyn_content.dropLast }) := by
        simp [History.pop, ALLOCATED_HISTORY, hgt]
      have hne : h.dyn_content ≠ [] := by
        intro hc
        rw [hc] at hd
        simp at hd
        omega
      obtain ⟨L, e, hLe⟩ : ∃ L e, h.dyn_content = L ++ [e] := by
        rcases List.eq_nil_or_concat h.dyn_content with hc | ⟨L, e, hc⟩
        · exact absurd hc hne
        · exact ⟨L, e, by simpa using hc⟩
      rw [hp, History.toList_big h a b h2 ha hb, hLe]
      have hcc : a :: b :: (L ++ [e]) = (a :: b :: L) ++ [e] := by simp
      refine ⟨?_, ?_, ?_⟩
      · rw [hcc, List.getLast?_concat, List.getLast?_concat]
      · have h2m : (2:Nat) ≤ h.length - 1 := by omega
        have ht2 : ([a, b] : List (V × Nat)).take (h.length - 1) = [a, b] :=
          List.take_of_length_le (by simpa using h2m)
        show (h.static0.toList ++ h.static1.toList).take (h.length - 1) ++ (L ++ [e]).dropLast
            = (a :: b :: (L ++ [e])).dropLast
        rw [hcc, List.dropLast_concat, List.dropLast_concat]
        simp only [ha, hb, Option.toList_some, List.singleton_append]
        rw [ht2]
        simp
      · refine Or.inr (Or.inr ⟨a, b, ?_, ha, hb, ?_⟩) <;> simp [hLe] at hd ⊢ <;> omega

theorem History.idx_eq {V : Type} (h : History V) (hw : h.wf) (i : Nat)
    (hi : i < h.length) : h.idx i = h.toList.get? i := by
  rcases hw with ⟨h0, hd⟩ | ⟨a, h1, ha, hd⟩ | ⟨a, b, h2, ha, hb, hd⟩
  · omega
  · have hi0 : i = 0 := by omega
    rw [hi0, History.toList_one h a h1 ha hd]
    simp [History.idx, ALLOCATED_HISTORY, ha]
  · rw [History.toList_big h a b h2 ha hb]
    match i with
    | 0 => simp [History.idx, ALLOCATED_HISTORY, ha]
    | 1 => simp [History.idx, ALLOCATED_HISTORY, hb]
    | i + 2 => simp [History.idx, ALLOCATED_HISTORY]

theorem exists_concat_of_length_succ {α : Type} (l : List α) (n : Nat)
    (h : l.length = n + 1) : ∃ L e, l = L ++ [e] ∧ L.length = n := by
  rcases List.eq_nil_or_concat l with hc | ⟨L, e, hc⟩
  · rw [hc] at h; simp at h
  · refine ⟨L, e, by simpa using hc, ?_⟩
    rw [hc] at h
    simp at h
    omega

/-- List-level visibility scan (newest first): the claim's "scan the history
from newest to oldest, skipping `Dropped` entries and stopping at the first
entry whose marker is `Pending`, `TxPending`, `Prospective` or `Committed`";
an out-of-range marker (a Rust panic) yields `none`. -/
def lGet {V : Type} (H : List TransactionState) : List (V × Nat) → Option V
  | [] => none
  | e :: t =>
    match H.get? e.2 with
    | none => none
    | some TransactionState.Dropped => lGet H t
    | some _ => some e.1

theorem History.getFrom_eq {V : Type} (h : History V) (hw : h.wf)
    (H : List TransactionState) :
    ∀ i, i ≤ h.length → h.getFrom H i = lGet H ((h.toList.take i).reverse) := by
  intro i
  induction i with
  | zero => intro _; simp [History.getFrom, lGet]
  | succ n ih =>
    intro hle
    have hn : n < h.length := by omega
    have hnl : n < h.toList.length := by rw [History.wf_toList_length h hw]; omega
    obtain ⟨e, he⟩ : ∃ e, h.toList.get? n = some e := by
      cases hq : h.toList.get? n with
      | none => exact absurd (List.get?_eq_none.1 hq) (by omega)
      | some e => exact ⟨e, rfl⟩
    have hidx : h.idx n = some e := by rw [History.idx_eq h hw n hn, he]
    have htake : h.toList.take (n + 1) = h.toList.take n ++ [e] := by
      rw [List.take_succ]
      rw [← List.get?_eq_getElem?, he]
      rfl
    obtain ⟨v, tag⟩ := e
    cases hm : H.get? tag with
    | none =>
      rw [List.get?_eq_getElem?] at hm
      simp [History.getFrom, hidx, hm, htake, lGet]
    | some st =>
      rw [List.get?_eq_getElem?] at hm
      cases st <;>
        simp [History.getFrom, hidx, hm, htake, lGet, ih (by omega)]

theorem History.get_eq {V : Type} (h : History V) (hw : h.wf)
    (H : List TransactionState) :
    h.get H = lGet H h.toList.reverse := by
  have := History.getFrom_eq h hw H h.length (le_refl _)
  rwa [List.take_of_length_le (le_of_eq (History.wf_toList_length h hw))] at this

/-- List-level compacting scan of `get_mut` (newest first): pops entries whose
marker is `Dropped` until the first visible entry. -/
def visScan {V : Type} (H : List TransactionState) :
    List (V × Nat) → Option (V × Nat) × List (V × Nat)
  | [] => (none, [])
  | e :: t =>
    match H.get? e.2 with
    | none => (none, e :: t)
    | some TransactionState.Dropped => visScan H t
    | some _ => (some e, e :: t)

theorem visScan_found {V : Type} (H : List TransactionState) :
    ∀ (l : List (V × Nat)) (e : V × Nat), (visScan H l).1 = some e →
      ∃ t, (visScan H l).2 = e :: t := by
  intro l
  induction l with
  | nil => intro e hf; simp [visScan] at hf
  | cons x t ih =>
    intro e hf
    cases hm : H.get? x.2 with
    | none => rw [visScan, hm] at hf; simp at hf
    | some st =>
      cases st
      case Dropped =>
        rw [visScan, hm] at hf ⊢
        exact ih e hf
      all_goals
        rw [visScan, hm] at hf ⊢
        simp at hf
        exact ⟨t, by rw [hf]⟩

theorem History.getMutGo_spec {V : Type} (H : List TransactionState) :
    ∀ (i : Nat) (h : History V), h.wf → i = h.length →
      (History.getMutGo H i h).1 = (visScan H h.toList.reverse).1 ∧
      (History.getMutGo H i h).2.toList = ((visScan H h.toList.reverse).2).reverse ∧
      (History.getMutGo H i h).2.wf := by
  intro i
  induction i with
  | zero =>
    intro h hw hlen
    have h0 : h.toList = [] :=
      List.eq_nil_of_length_eq_zero (by rw [History.wf_toList_length h hw]; omega)
    simp [History.getMutGo, h0, visScan, hw]
  | succ n ih =>
    intro h hw hlen
    have hL : h.toList.length = n + 1 := by rw [History.wf_toList_length h hw]; omega
    obtain ⟨L, e, hLe, hLn⟩ := exists_concat_of_length_succ h.toList n hL
    have hidx : h.idx n = some e := by
      rw [History.idx_eq h hw n (by omega), hLe, ← hLn, List.get?_concat_length]
    have hrev : h.toList.reverse = e :: L.reverse := by rw [hLe]; simp
    obtain ⟨v, tag⟩ := e
    cases hm : H.get? tag with
    | none =>
      rw [List.get?_eq_getElem?] at hm
      refine ⟨?_, ?_, ?_⟩ <;>
        simp [History.getMutGo, hidx, hm, hrev, visScan, hLe, hw]
    | some st =>
      rw [List.get?_eq_getElem?] at hm
      have hpop := History.pop_spec h hw
      have hpl : (h.pop).2.toList = L := by
        rw [hpop.2.1, hLe, List.dropLast_concat]
      have hplen : n = (h.pop).2.length := by
        rw [← History.wf_toList_length _ hpop.2.2, hpl, hLn]
      have hrec := ih (h.pop).2 hpop.2.2 hplen
      rw [hpl] at hrec
      cases st
      case Dropped =>
        refine ⟨?_, ?_, ?_⟩ <;>
          simp [History.getMutGo, hidx, hm, hrev, visScan, hrec.1, hrec.2.1, hrec.2.2]
      all_goals
        refine ⟨?_, ?_, ?_⟩ <;>
          simp [History.getMutGo, hidx, hm, hrev, visScan, hLe, hw]

theorem History.get_mut_spec {V : Type} (h : History V) (hw : h.wf)
    (H : List TransactionState) :
    (h.get_mut H).1 = (visScan H h.toList.reverse).1 ∧
    (h.get_mut H).2.toList = ((visScan H h.toList.reverse).2).reverse ∧
    (h.get_mut H).2.wf :=
  History.getMutGo_spec H h.length h hw rfl

theorem History.updateAt_last {V : Type} (h : History V) (hw : h.wf)
    (L : List (V × Nat)) (e : V × Nat) (hL : h.toList = L ++ [e])
    (f : V × Nat → V × Nat) :
    (h.updateAt (h.length - 1) f).toList = L ++ [f e] ∧
    (h.updateAt (h.length - 1) f).wf := by
  have he : h.toList.getLast? = some e := by rw [hL, List.getLast?_concat]
  have hdl : h.toList.dropLast = L := by rw [hL, List.dropLast_concat]
  rcases hw with ⟨h0, hd⟩ | ⟨a, h1, ha, hd⟩ | ⟨a, b, h2, ha, hb, hd⟩
  · rw [History.toList_zero h h0 hd] at hL
    exact absurd hL.symm (by simp)
  · rw [History.toList_one h a h1 ha hd] at he hdl
    simp at he
    subst he
    have hupd : h.updateAt (h.length - 1) f =
        { h with static0 := some (f a) } := by
      simp [History.updateAt, ALLOCATED_HISTORY, h1, ha]
    rw [hupd, ← hdl]
    constructor
    · have hz := History.toList_one ({ h with static0 := some (f a) } : History V)
        (f a) h1 rfl hd
      simpa using hz
    · exact Or.inr (Or.inl ⟨f a, h1, rfl, hd⟩)
  · by_cases hlen : h.length = 2
    · have hde : h.dyn_content = [] := by
        rw [hlen] at hd
        exact List.eq_nil_of_length_eq_zero (by omega)
      rw [History.toList_big h a b h2 ha hb, hde] at he hdl
      simp at he hdl
      subst he
      have hupd : h.updateAt (h.length - 1) f = { h with static1 := some (f b) } := by
        simp [History.updateAt, ALLOCATED_HISTORY, hlen, hb]
      rw [hupd, ← hdl]
      constructor
      · have hz := History.toList_big ({ h with static1 := some (f b) } : History V)
          a (f b) h2 ha rfl
        rw [hz, hde]
        simp
      · exact Or.inr (Or.inr ⟨a, f b, h2, ha, rfl, by simpa [hde] using hd⟩)
    · have hgt : 2 < h.length := by omega
      have hdne : h.dyn_content ≠ [] := by
        intro hc
        rw [hc] at hd
        simp at hd
        omega
      obtain ⟨D, e2, hDe, hDn⟩ := exists_concat_of_length_succ h.dyn_content
        (h.dyn_content.length - 1) (by omega)
      have htl : h.toList = (a :: b :: D) ++ [e2] := by
        rw [History.toList_big h a b h2 ha hb, hDe]
        simp
      rw [htl] at he hdl
      rw [List.getLast?_concat] at he
      rw [List.dropLast_concat] at hdl
      simp at he
      subst he
      have hidx2 : h.length - 1 - ALLOCATED_HISTORY = D.length := by
        simp [ALLOCATED_HISTORY]
        omega
      have hget2 : h.dyn_content.get? (h.length - 1 - ALLOCATED_HISTORY) = some e2 := by
        rw [hidx2, hDe, List.get?_concat_length]
      have hupd : h.updateAt (h.length - 1) f =
          { h with dyn_content := h.dyn_content.set (h.length - 1 - ALLOCATED_HISTORY) (f e2) } := by
        simp only [History.updateAt, ALLOCATED_HISTORY] at hget2 ⊢
        rw [if_pos (by omega)]
        rw [hget2]
      have hset2 : h.dyn_content.set (h.length - 1 - ALLOCATED_HISTORY) (f e2) = D ++ [f e2] := by
        rw [hidx2, hDe]
        exact set_last_aux D e2 (f e2)
      rw [hupd, hset2, ← hdl]
      constructor
      · have hz := History.toList_big ({ h with dyn_content := D ++ [f e2] } : History V)
          a b h2 ha hb
        rw [hz]
        simp
      · refine Or.inr (Or.inr ⟨a, b, h2, ha, hb, ?_⟩)
        have : (D ++ [f e2]).length = h.dyn_content.length := by
          rw [hDe]
          simp
        simpa [this] using hd

/-- List-level write at the current layer, parametric in how the new value is
built from the found visible entry (`mk`): compaction of the `Dropped` tail,
then an in-place rewrite when the found entry is tagged with the current
layer, a push tagged with the current layer otherwise. -/
def lSetG {V : Type} (H : List TransactionState) (mk : Option (V × Nat) → V)
    (l : List (V × Nat)) : List (V × Nat) :=
  match visScan H l.reverse with
  | (some e, r) =>
    if e.2 = H.length - 1 then r.reverse.dropLast ++ [(mk (some e), e.2)]
    else r.reverse ++ [(mk (some e), H.length - 1)]
  | (none, r) => r.reverse ++ [(mk none, H.length - 1)]

/-- The value written by `set_with_extrinsic_inner`, as a function of the
found visible entry: the new value plus the prior extrinsic set (empty when
absent) enlarged with the current extrinsic index. -/
def mkExtrinsic (val : Option Bytes) (ei : Nat)
    (cur : Option (OverlayedValue × Nat)) : OverlayedValue :=
  { value := val,
    extrinsics := some (insert ei ((cur.bind (fun e => e.1.extrinsics)).getD ∅)) }

/-- The in-place rewrite performed by `set_with_extrinsic_inner` on the slot
found at the current layer. -/
def innerInPlace (val : Option Bytes) (ei : Nat) (e : OverlayedValue × Nat) :
    OverlayedValue × Nat :=
  ({ value := val, extrinsics := some (insert ei ((e.1).extrinsics.getD ∅)) }, e.2)

theorem History.set_spec {V : Type} (h : History V) (hw : h.wf)
    (H : List TransactionState) (val : V) :
    (h.set H val).toList = lSetG H (fun _ => val) h.toList ∧ (h.set H val).wf := by
  have hg := History.get_mut_spec h hw H
  rcases hv : visScan H h.toList.reverse with ⟨vf, r⟩
  rw [hv] at hg
  rcases hgm : h.get_mut H with ⟨fnd, h2⟩
  rw [hgm] at hg
  obtain ⟨hg1, hg2, hg3⟩ := hg
  simp at hg1 hg2 hg3
  cases vf with
  | none =>
    subst hg1
    have hset : h.set H val = h2.push val (H.length - 1) := by
      simp [History.set, hgm]
    refine ⟨?_, ?_⟩
    · rw [hset, History.push_toList h2 hg3, hg2, lSetG, hv]
    · rw [hset]
      exact History.push_wf h2 hg3 _ _
  | some e =>
    subst hg1
    obtain ⟨t, ht⟩ := visScan_found H h.toList.reverse e (by rw [hv])
    rw [hv] at ht
    simp at ht
    obtain ⟨v, i⟩ := e
    by_cases hi : i = H.length - 1
    · have hset : h.set H val = h2.updateAt (h2.length - 1) (fun e => (val, e.2)) := by
        simp [History.set, hgm, hi]
      have h2l : h2.toList = t.reverse ++ [(v, i)] := by
        rw [hg2, ht]
        simp
      have hupd := History.updateAt_last h2 hg3 t.reverse (v, i) h2l
        (fun e => (val, e.2))
      refine ⟨?_, ?_⟩
      · rw [hset, hupd.1, lSetG, hv, ht]
        simp [hi]
      · rw [hset]
        exact hupd.2
    · have hset : h.set H val = h2.push val (H.length - 1) := by
        simp [History.set, hgm, hi]
      refine ⟨?_, ?_⟩
      · rw [hset, History.push_toList h2 hg3, hg2, lSetG, hv]
        simp [hi]
      · rw [hset]
        exact History.push_wf h2 hg3 _ _

theorem History.inner_spec (h : History OverlayedValue) (hw : h.wf)
    (H : List TransactionState) (val : Option Bytes) (ei : Nat) :
    (h.set_with_extrinsic_inner H val ei).toList =
      lSetG H (mkExtrinsic val ei) h.toList ∧
    (h.set_with_extrinsic_inner H val ei).wf := by
  have hg := History.get_mut_spec h hw H
  rcases hv : visScan H h.toList.reverse with ⟨vf, r⟩
  rw [hv] at hg
  rcases hgm : h.get_mut H with ⟨fnd, h2⟩
  rw [hgm] at hg
  obtain ⟨hg1, hg2, hg3⟩ := hg
  simp at hg1 hg2 hg3
  cases vf with
  | none =>
    subst hg1
    have hset : h.set_with_extrinsic_inner H val ei =
        h2.push (mkExtrinsic val ei none) (H.length - 1) := by
      simp [History.set_with_extrinsic_inner, hgm, mkExtrinsic]
    refine ⟨?_, ?_⟩
    · rw [hset, History.push_toList h2 hg3, hg2, lSetG, hv]
    · rw [hset]
      exact History.push_wf h2 hg3 _ _
  | some e =>
    subst hg1
    obtain ⟨t, ht⟩ := visScan_found H h.toList.reverse e (by rw [hv])
    rw [hv] at ht
    simp at ht
    obtain ⟨v, i⟩ := e
    by_cases hi : i = H.length - 1
    · have hset : h.set_with_extrinsic_inner H val ei =
          h2.updateAt (h2.length - 1) (innerInPlace val ei) := by
        simp [History.set_with_extrinsic_inner, hgm, hi]
        rfl
      have h2l : h2.toList = t.reverse ++ [(v, i)] := by
        rw [hg2, ht]
        simp
      have hupd := History.updateAt_last h2 hg3 t.reverse (v, i) h2l
        (innerInPlace val ei)
      refine ⟨?_, ?_⟩
      · rw [hset, hupd.1, lSetG, hv, ht]
        simp [hi, mkExtrinsic, innerInPlace]
      · rw [hset]
        exact hupd.2
    · have hset : h.set_with_extrinsic_inner H val ei =
          h2.push (mkExtrinsic val ei (some (v, i))) (H.length - 1) := by
        simp [History.set_with_extrinsic_inner, hgm, hi, mkExtrinsic]
      refine ⟨?_, ?_⟩
      · rw [hset, History.push_toList h2 hg3, hg2, lSetG, hv]
        simp [hi]
      · rw [hset]
        exact History.push_wf h2 hg3 _ _

/-- The value written by `set_with_extrinsic`, as a function of the found
visible entry. -/
def sweMk (val : Option Bytes) (ei : Option Nat) :
    Option (OverlayedValue × Nat) → OverlayedValue :=
  match ei with
  | some e => mkExtrinsic val e
  | none => fun _ => { value := val, extrinsics := none }

/-- `set_with_extrinsic` at the list level: with an extrinsic index it is the
attributed write, without one it writes a plain value carrying no extrinsic
set. -/
theorem History.swe_spec (h : History OverlayedValue) (hw : h.wf)
    (H : List TransactionState) (val : Option Bytes) (ei : Option Nat) :
    (h.set_with_extrinsic H val ei).toList =
      lSetG H (sweMk val ei) h.toList ∧
    (h.set_with_extrinsic H val ei).wf := by
  cases ei with
  | some e => exact History.inner_spec h hw H val e
  | none => exact History.set_spec h hw H { value := val, extrinsics := none }

/-!
Reachable-state invariants.
-/

/-- Every entry's `history_index` is strictly below `n`. -/
def tagsBelow {V : Type} (n : Nat) (l : List (V × Nat)) : Prop := ∀ e ∈ l, e.2 < n

/-- Entries appear in non-decreasing order of `history_index` (oldest first). -/
def tagsMono {V : Type} (l : List (V × Nat)) : Prop :=
  l.Pairwise (fun a b => a.2 ≤ b.2)

/-- The per-value-history invariant: well-formed layout, valid tags,
monotone tags, and at most one entry tagged with the current layer. -/
def HistOk (H : List TransactionState) (h : History OverlayedValue) : Prop :=
  h.wf ∧ tagsBelow H.length h.toList ∧ tagsMono h.toList ∧
    h.toList.countP (fun e => e.2 == H.length - 1) ≤ 1

/-- The history vector ends in `Pending` or `TxPending`. -/
def lastOk (H : List TransactionState) : Prop :=
  H.getLast? = some TransactionState.Pending ∨
  H.getLast? = some TransactionState.TxPending

/-- The global invariant of an overlayed change set. -/
def InvCS (cs : OverlayedChangeSet) : Prop :=
  cs.history ≠ [] ∧ lastOk cs.history ∧
  (∀ p ∈ cs.top, HistOk cs.history p.2) ∧
  (∀ c ∈ cs.children, ∀ p ∈ c.2, HistOk cs.history p.2)

/-- The global invariant of the overlay. -/
def OverlayInv (o : OverlayedChanges) : Prop := InvCS o.changes

theorem visScan_suffix {V : Type} (H : List TransactionState) :
    ∀ l : List (V × Nat), (visScan H l).2.Sublist l := by
  intro l
  induction l with
  | nil => simp [visScan]
  | cons x t ih =>
    rw [visScan]
    cases hm : H.get? x.2 with
    | none =>
      show (x :: t).Sublist (x :: t)
      exact List.Sublist.refl _
    | some st =>
      cases st
      case Dropped =>
        show (visScan H t).2.Sublist (x :: t)
        exact ih.cons x
      all_goals
        show (x :: t).Sublist (x :: t)
        exact List.Sublist.refl _

theorem visScan_decomp {V : Type} (H : List TransactionState) :
    ∀ l : List (V × Nat), ∃ j, l = j ++ (visScan H l).2 ∧
      ∀ e ∈ j, H.get? e.2 = some TransactionState.Dropped := by
  intro l
  induction l with
  | nil => exact ⟨[], by simp [visScan]⟩
  | cons x t ih =>
    cases hm : H.get? x.2 with
    | none =>
      refine ⟨[], ?_, by simp⟩
      rw [visScan, hm]
      rfl
    | some st =>
      cases st
      case Dropped =>
        obtain ⟨j, hj, hjd⟩ := ih
        refine ⟨x :: j, ?_, ?_⟩
        · rw [visScan, hm]
          show x :: t = (x :: j) ++ (visScan H t).2
          rw [List.cons_append, ← hj]
        · intro e he
          rcases List.mem_cons.1 he with rfl | he2
          · exact hm
          · exact hjd e he2
      all_goals
        refine ⟨[], ?_, by simp⟩
        rw [visScan, hm]
        rfl

theorem visScan_none_shape {V : Type} (H : List TransactionState) :
    ∀ l : List (V × Nat), (visScan H l).1 = none →
      (visScan H l).2 = [] ∨
      ∃ e t, (visScan H l).2 = e :: t ∧ H.get? e.2 = none := by
  intro l
  induction l with
  | nil => intro _; exact Or.inl rfl
  | cons x t ih =>
    rw [visScan]
    cases hm : H.get? x.2 with
    | none =>
      intro _
      refine Or.inr ⟨x, t, ?_, hm⟩
      rfl
    | some st =>
      cases st
      case Dropped => exact ih
      all_goals
        intro hf
        exact absurd hf (by simp)

theorem lSetG_eq_found {V : Type} (H : List TransactionState)
    (mk : Option (V × Nat) → V) (l : List (V × Nat)) (e : V × Nat)
    (r : List (V × Nat)) (hv : visScan H l.reverse = (some e, r)) :
    lSetG H mk l =
      if e.2 = H.length - 1 then r.reverse.dropLast ++ [(mk (some e), e.2)]
      else r.reverse ++ [(mk (some e), H.length - 1)] := by
  unfold lSetG
  rw [hv]

theorem lSetG_eq_none {V : Type} (H : List TransactionState)
    (mk : Option (V × Nat) → V) (l : List (V × Nat))
    (r : List (V × Nat)) (hv : visScan H l.reverse = (none, r)) :
    lSetG H mk l = r.reverse ++ [(mk none, H.length - 1)] := by
  unfold lSetG
  rw [hv]

theorem lSetG_histOk {V : Type} (H : List TransactionState)
    (mk : Option (V × Nat) → V) (l : List (V × Nat)) (hne : H ≠ [])
    (hb : tagsBelow H.length l) (hm : tagsMono l)
    (hc : l.countP (fun e => e.2 == H.length - 1) ≤ 1) :
    tagsBelow H.length (lSetG H mk l) ∧ tagsMono (lSetG H mk l) ∧
    (lSetG H mk l).countP (fun e => e.2 == H.length - 1) ≤ 1 := by
  have hHpos : 0 < H.length := List.length_pos.2 hne
  have hpre : (visScan H l.reverse).2.reverse.Sublist l := by
    have h1 := (visScan_suffix H l.reverse).reverse
    simpa using h1
  have hbp : tagsBelow H.length (visScan H l.reverse).2.reverse :=
    fun e he => hb e (hpre.mem he)
  have hmp : tagsMono (visScan H l.reverse).2.reverse := hm.sublist hpre
  have hcp : (visScan H l.reverse).2.reverse.countP (fun e => e.2 == H.length - 1) ≤
      l.countP (fun e => e.2 == H.length - 1) := hpre.countP_le _
  rcases hv : (visScan H l.reverse) with ⟨vf, r⟩
  rw [hv] at hbp hmp hcp hpre
  cases vf with
  | none =>
    have hr : r = [] := by
      rcases visScan_none_shape H l.reverse (by rw [hv]) with h0 | ⟨e, t, het, hem⟩
      · rw [hv] at h0; exact h0
      · rw [hv] at het
        simp at het
        exfalso
        have hmem : e ∈ l := by
          have : e ∈ r.reverse := by simp [het]
          exact hpre.mem this
        have : e.2 < H.length := hb e hmem
        rw [List.get?_eq_getElem?] at hem
        rw [List.getElem?_eq_none_iff] at hem
        omega
    subst hr
    rw [lSetG_eq_none H mk l [] hv]
    refine ⟨?_, ?_, ?_⟩
    · intro e he
      simp at he
      rw [he]
      simpa using hHpos
    · simp [tagsMono]
    · simp
  | some e =>
    obtain ⟨t, ht⟩ := visScan_found H l.reverse e (by rw [hv])
    rw [hv] at ht
    simp at ht
    subst ht
    obtain ⟨v, i⟩ := e
    rw [lSetG_eq_found H mk l (v, i) ((v, i) :: t) hv]
    have himem : (v, i) ∈ l := hpre.mem (by simp)
    have hilt : i < H.length := hb _ himem
    have hrr : ((v, i) :: t).reverse = t.reverse ++ [(v, i)] := by simp
    have htle : ∀ x ∈ t.reverse, x.2 ≤ i := by
      intro x hx
      rw [hrr] at hmp
      exact (List.pairwise_append.1 hmp).2.2 x hx (v, i) (by simp)
    by_cases hi : i = H.length - 1
    · rw [if_pos (show ((v, i) : V × Nat).2 = H.length - 1 from hi), hrr,
        List.dropLast_concat]
      have hcnt : t.reverse.countP (fun e => e.2 == H.length - 1) = 0 := by
        have hone : List.countP (fun e => e.2 == H.length - 1) [((v, i) : V × Nat)] = 1 := by
          simp [List.countP_cons, hi]
        rw [hrr, List.countP_append, hone] at hcp
        omega
      refine ⟨?_, ?_, ?_⟩
      · intro x hx
        rcases List.mem_append.1 hx with hx2 | hx2
        · exact hb x (hpre.mem (by rw [hrr]; exact List.mem_append_left _ hx2))
        · simp at hx2
          rw [hx2]
          simpa using hilt
      · rw [tagsMono, List.pairwise_append]
        refine ⟨hmp.sublist (by rw [hrr]; exact List.sublist_append_left _ _),
          by simp [tagsMono], ?_⟩
        intro x hx y hy
        simp at hy
        rw [hy]
        exact htle x hx
      · rw [List.countP_append, hcnt]
        simp [List.countP_cons, hi]
    · rw [if_neg (show ¬ ((v, i) : V × Nat).2 = H.length - 1 from hi)]
      have hall : ∀ x ∈ ((v, i) :: t).reverse, x.2 < H.length - 1 := by
        intro x hx
        rw [hrr] at hx
        rcases List.mem_append.1 hx with hx2 | hx2
        · have := htle x hx2
          omega
        · simp at hx2
          rw [hx2]
          omega
      refine ⟨?_, ?_, ?_⟩
      · intro x hx
        rcases List.mem_append.1 hx with hx2 | hx2
        · exact hb x (hpre.mem hx2)
        · simp at hx2
          rw [hx2]
          simpa using hHpos
      · rw [tagsMono, List.pairwise_append]
        refine ⟨hmp, by simp [tagsMono], ?_⟩
        intro x hx y hy
        simp at hy
        rw [hy]
        have := hall x hx
        omega
      · rw [List.countP_append]
        have h0 : (((v, i) :: t).reverse).countP (fun e => e.2 == H.length - 1) = 0 := by
          rw [List.countP_eq_zero]
          intro a ha
          have := hall a ha
          simp
          omega
        rw [h0]
        simp

theorem HistOk_empty (H : List TransactionState) : HistOk H History.empty := by
  refine ⟨History.empty_wf, ?_, ?_, ?_⟩ <;>
    simp [History.empty_toList, tagsBelow, tagsMono]

theorem HistOk_swe (H : List TransactionState) (h : History OverlayedValue)
    (hok : HistOk H h) (hne : H ≠ []) (val : Option Bytes) (ei : Option Nat) :
    HistOk H (h.set_with_extrinsic H val ei) := by
  obtain ⟨hw, hb, hm, hc⟩ := hok
  have hs := History.swe_spec h hw H val ei
  have hl := lSetG_histOk H (sweMk val ei) h.toList hne hb hm hc
  exact ⟨hs.2, by rw [hs.1]; exact hl.1, by rw [hs.1]; exact hl.2.1,
    by rw [hs.1]; exact hl.2.2⟩

theorem HistOk_grow (H H2 : List TransactionState) (h : History OverlayedValue)
    (hok : HistOk H h) (hlen : H.length < H2.length) : HistOk H2 h := by
  obtain ⟨hw, hb, hm, hc⟩ := hok
  refine ⟨hw, fun e he => lt_trans (hb e he) hlen, hm, ?_⟩
  have h0 : h.toList.countP (fun e => e.2 == H2.length - 1) = 0 := by
    rw [List.countP_eq_zero]
    intro e he
    have := hb e he
    simp
    omega
  omega

theorem discardPGo_length (l : List TransactionState) :
    (discardPGo l).length = l.length := by
  induction l with
  | nil => rfl
  | cons s t ih => cases s <;> simp [discardPGo, ih]

theorem commitPGo_length (l : List TransactionState) :
    (commitPGo l).length = l.length := by
  induction l with
  | nil => rfl
  | cons s t ih => cases s <;> simp [commitPGo, ih]

theorem discardTGo_length (l : List TransactionState) :
    (discardTGo l).length = l.length := by
  induction l with
  | nil => rfl
  | cons s t ih => cases s <;> simp [discardTGo, ih]

theorem commitTGo_length (l : List TransactionState) :
    (commitTGo l).length = l.length := by
  induction l with
  | nil => rfl
  | cons s t ih => cases s <;> simp [commitTGo, ih]

theorem updEntry_forall {α β : Type} [DecidableEq α] (P : β → Prop)
    (m : List (α × β)) (key : α) (d : β) (f : β → β)
    (hm : ∀ p ∈ m, P p.2) (hd : P d) (hf : ∀ v, P v → P (f v)) :
    ∀ p ∈ updEntry m key d f, P p.2 := by
  induction m with
  | nil =>
    intro p hp
    simp [updEntry] at hp
    rw [hp]
    exact hf d hd
  | cons hd2 t ih =>
    intro p hp
    obtain ⟨k, v⟩ := hd2
    rw [updEntry] at hp
    by_cases hk : key = k
    · rw [if_pos hk] at hp
      rcases List.mem_cons.1 hp with rfl | hp2
      · exact hf v (hm (k, v) (by simp))
      · exact hm p (List.mem_cons_of_mem _ hp2)
    · rw [if_neg hk] at hp
      rcases List.mem_cons.1 hp with rfl | hp2
      · exact hm (k, v) (by simp)
      · exact ih (fun q hq => hm q (List.mem_cons_of_mem _ hq)) p hp2

theorem setConfig_changes (o : OverlayedChanges) (c : ChangesTrieConfig) :
    ((o.set_changes_trie_config c).2).changes = o.changes := by
  cases hc : o.changes_trie_config with
  | none => simp [OverlayedChanges.set_changes_trie_config, hc]
  | some old =>
    by_cases h : old = c <;>
      simp [OverlayedChanges.set_changes_trie_config, hc, h]

theorem InvCS_newHistory (cs : OverlayedChangeSet) (hI : InvCS cs)
    (H2 : List TransactionState) (hlen : cs.history.length < H2.length)
    (hlast : lastOk H2) (hne2 : H2 ≠ []) :
    InvCS { cs with history := H2 } := by
  obtain ⟨hne, hl, htop, hch⟩ := hI
  exact ⟨hne2, hlast, fun p hp => HistOk_grow _ _ _ (htop p hp) hlen,
    fun c hc p hp => HistOk_grow _ _ _ (hch c hc p hp) hlen⟩

theorem inv_set_storage (o : OverlayedChanges) (hI : OverlayInv o) (key : Bytes)
    (val : Option Bytes) : OverlayInv (o.set_storage key val) := by
  obtain ⟨hne, hlast, htop, hch⟩ := hI
  refine ⟨hne, hlast, ?_, hch⟩
  exact updEntry_forall (HistOk o.changes.history) o.changes.top key History.empty
    (fun entry => entry.set_with_extrinsic o.changes.history val o.extrinsic_index)
    htop (HistOk_empty _) (fun v hv => HistOk_swe _ v hv hne val _)

theorem inv_set_child_storage (o : OverlayedChanges) (hI : OverlayInv o)
    (sk key : Bytes) (val : Option Bytes) :
    OverlayInv (o.set_child_storage sk key val) := by
  obtain ⟨hne, hlast, htop, hch⟩ := hI
  refine ⟨hne, hlast, htop, ?_⟩
  exact updEntry_forall (fun m => ∀ p ∈ m, HistOk o.changes.history p.2)
    o.changes.children sk []
    (fun map_entry => updEntry map_entry key History.empty
      (fun entry => entry.set_with_extrinsic o.changes.history val o.extrinsic_index))
    hch (by simp)
    (fun m hm2 => updEntry_forall (HistOk o.changes.history) m key History.empty
      (fun entry => entry.set_with_extrinsic o.changes.history val o.extrinsic_index)
      hm2 (HistOk_empty _) (fun v hv => HistOk_swe _ v hv hne val _))

theorem inv_clear_child (o : OverlayedChanges) (hI : OverlayInv o) (sk : Bytes) :
    OverlayInv (o.clear_child_storage sk) := by
  obtain ⟨hne, hlast, htop, hch⟩ := hI
  refine ⟨hne, hlast, htop, ?_⟩
  refine updEntry_forall (fun m => ∀ p ∈ m, HistOk o.changes.history p.2)
    o.changes.children sk []
    (fun map_entry => map_entry.map (fun p =>
      (p.1, p.2.set_with_extrinsic o.changes.history none o.extrinsic_index)))
    hch (by simp) ?_
  intro m hm2 p hp
  rcases List.mem_map.1 hp with ⟨q, hq, hqe⟩
  rw [← hqe]
  exact HistOk_swe _ q.2 (hm2 q hq) hne none _

theorem inv_clearPrefixes (o : OverlayedChanges) (hI : OverlayInv o) (pre : Bytes) :
    OverlayInv (o.clearPrefixes pre) := by
  obtain ⟨hne, hlast, htop, hch⟩ := hI
  refine ⟨hne, hlast, ?_, hch⟩
  intro p hp
  rcases List.mem_map.1 hp with ⟨q, hq, hqe⟩
  by_cases hs : startsWith pre q.1
  · rw [if_pos hs] at hqe
    rw [← hqe]
    exact HistOk_swe _ q.2 (htop q hq) hne none _
  · rw [if_neg hs] at hqe
    rw [← hqe]
    exact htop q hq

theorem inv_applyOp (o : OverlayedChanges) (op : Op) (hI : OverlayInv o) :
    OverlayInv (applyOp o op) := by
  cases op with
  | setStorage key val => exact inv_set_storage o hI key val
  | setChildStorage sk key val => exact inv_set_child_storage o hI sk key val
  | clearChild sk => exact inv_clear_child o hI sk
  | clearPre pre => exact inv_clearPrefixes o hI pre
  | startTx =>
    exact InvCS_newHistory o.changes hI _ (by simp) (Or.inr (List.getLast?_concat _))
      (by simp)
  | commitTx =>
    refine InvCS_newHistory o.changes hI _ ?_ (Or.inl (List.getLast?_concat _)) (by simp)
    simp [commitTGo_length]
  | discardTx =>
    refine InvCS_newHistory o.changes hI _ ?_ (Or.inl (List.getLast?_concat _)) (by simp)
    simp [discardTGo_length]
  | commitPros =>
    refine InvCS_newHistory o.changes hI _ ?_ (Or.inl (List.getLast?_concat _)) (by simp)
    simp [commitPGo_length]
  | discardPros =>
    refine InvCS_newHistory o.changes hI _ ?_ (Or.inl (List.getLast?_concat _)) (by simp)
    simp [discardPGo_length]
  | setConfig c =>
    show InvCS ((o.set_changes_trie_config c).2).changes
    rw [setConfig_changes o c]
    exact hI

theorem inv_applyOps (l : List Op) : ∀ o, OverlayInv o → OverlayInv (applyOps o l) := by
  induction l with
  | nil => intro o h; exact h
  | cons op t ih => intro o h; exact ih (applyOp o op) (inv_applyOp o op h)

theorem inv_default : OverlayInv OverlayedChanges.default :=
  ⟨by simp [OverlayedChanges.default, OverlayedChangeSet.default],
    Or.inl rfl, by simp [OverlayedChanges.default, OverlayedChangeSet.default],
    by simp [OverlayedChanges.default, OverlayedChangeSet.default]⟩

theorem inv_reach (l : List Op) : OverlayInv (applyOps OverlayedChanges.default l) :=
  inv_applyOps l OverlayedChanges.default inv_default

/-!
Transaction rollback relation: discarding a transaction restores reads.
-/

/-- The abstract entry list currently stored for a top key (empty when the
key is absent). -/
def topListAt (o : OverlayedChanges) (k : Bytes) : List (OverlayedValue × Nat) :=
  ((lookupA o.changes.top k).map History.toList).getD []

/-- The abstract entry list currently stored for a child key. -/
def childListAt (o : OverlayedChanges) (sk k : Bytes) : List (OverlayedValue × Nat) :=
  ((lookupA ((lookupA o.changes.children sk).getD []) k).map History.toList).getD []

/-- How a key's entry list may evolve during a transaction opened on top of
history `H0`: some `Dropped`-tail entries (`junk`) may have been compacted
away, and at most one entry tagged with the new layer `H0.length` may have
been appended. -/
def TxRel (H0 : List TransactionState) (l l2 : List (OverlayedValue × Nat)) : Prop :=
  ∃ base junk, l = base ++ junk ∧
    (∀ e ∈ junk, H0.get? e.2 = some TransactionState.Dropped) ∧
    (l2 = base ∨ ∃ ov, l2 = base ++ [(ov, H0.length)])

theorem TxRel_refl (H0 : List TransactionState) (l : List (OverlayedValue × Nat)) :
    TxRel H0 l l :=
  ⟨l, [], by simp, by simp, Or.inl rfl⟩

theorem visScan_cons_vis {V : Type} (H : List TransactionState) (e : V × Nat)
    (t : List (V × Nat)) (st : TransactionState) (hm : H.get? e.2 = some st)
    (hst : st ≠ TransactionState.Dropped) : visScan H (e :: t) = (some e, e :: t) := by
  rw [visScan, hm]
  cases st
  case Dropped => exact absurd rfl hst
  all_goals rfl

theorem lGet_cons_dropped {V : Type} (H : List TransactionState) (e : V × Nat)
    (t : List (V × Nat)) (hm : H.get? e.2 = some TransactionState.Dropped) :
    lGet H (e :: t) = lGet H t := by
  rw [lGet, hm]

theorem lGet_congr {V : Type} (H H2 : List TransactionState) :
    ∀ l : List (V × Nat), (∀ e ∈ l, H.get? e.2 = H2.get? e.2) →
      lGet H l = lGet H2 l := by
  intro l
  induction l with
  | nil => intro _; rfl
  | cons x t ih =>
    intro hag
    have hx : H.get? x.2 = H2.get? x.2 := hag x (by simp)
    rw [lGet, lGet, ← hx]
    cases hm : H.get? x.2 with
    | none => rfl
    | some st =>
      cases st
      case Dropped => exact ih (fun e he => hag e (List.mem_cons_of_mem _ he))
      all_goals rfl

theorem lGet_dropped_app {V : Type} (H : List TransactionState) :
    ∀ (j rest : List (V × Nat)),
      (∀ e ∈ j, H.get? e.2 = some TransactionState.Dropped) →
      lGet H (j ++ rest) = lGet H rest := by
  intro j
  induction j with
  | nil => intro rest _; rfl
  | cons x t ih =>
    intro rest hj
    rw [List.cons_append, lGet_cons_dropped H x _ (hj x (by simp))]
    exact ih rest (fun e he => hj e (List.mem_cons_of_mem _ he))

theorem lookupA_updEntry {α β : Type} [DecidableEq α] (m : List (α × β))
    (key k : α) (d : β) (f : β → β) :
    lookupA (updEntry m key d f) k =
      if k = key then some (f ((lookupA m key).getD d)) else lookupA m k := by
  induction m with
  | nil =>
    by_cases hk : k = key <;> simp [updEntry, lookupA, hk]
  | cons hd t ih =>
    obtain ⟨k2, v⟩ := hd
    by_cases hkey : key = k2
    · subst hkey
      by_cases hk : k = key <;> simp [updEntry, lookupA, hk]
    · by_cases hk : k = k2
      · subst hk
        have hne : ¬ k = key := fun hc => hkey hc.symm
        simp [updEntry, lookupA, hkey, hne]
      · simp [updEntry, lookupA, hkey, hk, ih]

theorem lookupA_map_val {α β : Type} [DecidableEq α] (m : List (α × β))
    (f : α → β → β) (k : α) :
    lookupA (m.map (fun p => (p.1, f p.1 p.2))) k = (lookupA m k).map (f k) := by
  induction m with
  | nil => rfl
  | cons hd t ih =>
    obtain ⟨k2, v⟩ := hd
    by_cases hk : k = k2
    · subst hk
      simp [lookupA]
    · simp [lookupA, hk, ih]

theorem TxRel_lSetG (H0 : List TransactionState) (l l2 : List (OverlayedValue × Nat))
    (hrel : TxRel H0 l l2) (hb : tagsBelow H0.length l)
    (mk : Option (OverlayedValue × Nat) → OverlayedValue) :
    TxRel H0 l (lSetG (H0 ++ [TransactionState.TxPending]) mk l2) := by
  obtain ⟨base, junk, hl, hjd, hc⟩ := hrel
  have hbase_b : tagsBelow H0.length base := by
    intro e he
    exact hb e (by rw [hl]; exact List.mem_append_left _ he)
  rcases hc with hc | ⟨ov, hc⟩
  · rw [hc]
    obtain ⟨j2, hj2pre, hj2d⟩ :=
      visScan_decomp (H0 ++ [TransactionState.TxPending]) base.reverse
    rcases hvv : visScan (H0 ++ [TransactionState.TxPending]) base.reverse with ⟨f1, r1⟩
    rw [hvv] at hj2pre
    have hr1sub : ∀ e ∈ r1, e ∈ base := by
      intro e he
      rw [← List.mem_reverse, hj2pre]
      exact List.mem_append_right _ he
    have hj2sub : ∀ e ∈ j2, e ∈ base := by
      intro e he
      rw [← List.mem_reverse, hj2pre]
      exact List.mem_append_left _ he
    have hj2d2 : ∀ e ∈ j2, H0.get? e.2 = some TransactionState.Dropped := by
      intro e he
      have h1 := hj2d e he
      rwa [List.get?_append (hbase_b e (hj2sub e he))] at h1
    cases f1 with
    | none =>
      have hr1 : r1 = [] := by
        rcases visScan_none_shape (H0 ++ [TransactionState.TxPending]) base.reverse
            (by rw [hvv]) with h0 | ⟨e, t, het, hem⟩
        · rw [hvv] at h0; exact h0
        · rw [hvv] at het
          simp at het
          exfalso
          have hmem : e ∈ base := hr1sub e (by rw [het]; simp)
          have hlt : e.2 < (H0 ++ [TransactionState.TxPending]).length := by
            have := hbase_b e hmem
            simp
            omega
          rw [List.get?_eq_getElem?, List.getElem?_eq_none_iff] at hem
          omega
      subst hr1
      rw [lSetG_eq_none _ mk _ _ hvv]
      refine ⟨[], base ++ junk, by rw [hl]; simp, ?_, Or.inr ⟨mk none, by simp⟩⟩
      intro e he
      rcases List.mem_append.1 he with he2 | he2
      · exact hj2d2 e (by rw [← List.mem_reverse, hj2pre] at he2; simpa using he2)
      · exact hjd e he2
    | some e =>
      obtain ⟨t, ht⟩ := visScan_found (H0 ++ [TransactionState.TxPending])
        base.reverse e (by rw [hvv])
      rw [hvv] at ht
      simp at ht
      subst ht
      have hemem : e ∈ base := hr1sub e (by simp)
      have hene : ¬ e.2 = (H0 ++ [TransactionState.TxPending]).length - 1 := by
        have := hbase_b e hemem
        simp
        omega
      rw [lSetG_eq_found _ mk _ _ _ hvv, if_neg hene]
      refine ⟨(e :: t).reverse, j2.reverse ++ junk, ?_, ?_, ?_⟩
      · rw [hl]
        have : base = (e :: t).reverse ++ j2.reverse := by
          rw [← List.reverse_reverse base, hj2pre]
          simp
        rw [this, List.append_assoc]
      · intro x hx
        rcases List.mem_append.1 hx with hx2 | hx2
        · exact hj2d2 x (List.mem_reverse.1 hx2)
        · exact hjd x hx2
      · refine Or.inr ⟨mk (some e), ?_⟩
        have : (H0 ++ [TransactionState.TxPending]).length - 1 = H0.length := by simp
        rw [this]
  · have hrev : (base ++ [(ov, H0.length)]).reverse =
        (ov, H0.length) :: base.reverse := by simp
    have hmark : (H0 ++ [TransactionState.TxPending]).get? H0.length =
        some TransactionState.TxPending := by
      rw [List.get?_append_right (le_refl _)]
      simp
    have hv : visScan (H0 ++ [TransactionState.TxPending])
        (base ++ [(ov, H0.length)]).reverse =
        (some (ov, H0.length), (ov, H0.length) :: base.reverse) := by
      rw [hrev]
      exact visScan_cons_vis _ _ _ _ hmark (by simp)
    rw [hc, lSetG_eq_found _ mk _ _ _ hv, if_pos (by simp)]
    refine ⟨base, junk, hl, hjd, Or.inr ⟨mk (some (ov, H0.length)), ?_⟩⟩
    simp

theorem TxRel_lGet (H0 : List TransactionState) (l l2 : List (OverlayedValue × Nat))
    (hrel : TxRel H0 l l2) (hb : tagsBelow H0.length l) :
    lGet (H0 ++ [TransactionState.Dropped, TransactionState.Pending]) l2.reverse =
    lGet H0 l.reverse := by
  obtain ⟨base, junk, hl, hjd, hc⟩ := hrel
  have hbase_b : tagsBelow H0.length base := by
    intro e he
    exact hb e (by rw [hl]; exact List.mem_append_left _ he)
  have hmeq : ∀ e ∈ base.reverse,
      (H0 ++ [TransactionState.Dropped, TransactionState.Pending]).get? e.2 =
      H0.get? e.2 := by
    intro e he
    exact List.get?_append (hbase_b e (List.mem_reverse.1 he))
  have hRHS : lGet H0 l.reverse = lGet H0 base.reverse := by
    rw [hl, List.reverse_append]
    exact lGet_dropped_app H0 junk.reverse base.reverse
      (fun e he => hjd e (List.mem_reverse.1 he))
  rcases hc with hc | ⟨ov, hc⟩ <;> rw [hc]
  · rw [hRHS]
    exact lGet_congr _ _ base.reverse hmeq
  · have hrev : (base ++ [(ov, H0.length)]).reverse =
        (ov, H0.length) :: base.reverse := by simp
    have hmark : (H0 ++ [TransactionState.Dropped, TransactionState.Pending]).get?
        H0.length = some TransactionState.Dropped := by
      rw [List.get?_append_right (le_refl _)]
      simp
    rw [hrev, lGet_cons_dropped _ _ _ hmark, hRHS]
    exact lGet_congr _ _ base.reverse hmeq

theorem lookupA_mem {α β : Type} [DecidableEq α] :
    ∀ (m : List (α × β)) (key : α) (v : β), lookupA m key = some v → (key, v) ∈ m := by
  intro m
  induction m with
  | nil => intro key v h; simp [lookupA] at h
  | cons hd t ih =>
    intro key v h
    obtain ⟨k2, v2⟩ := hd
    rw [lookupA] at h
    by_cases hk : key = k2
    · rw [if_pos hk] at h
      simp at h
      rw [hk, h]
      simp
    · rw [if_neg hk] at h
      exact List.mem_cons_of_mem _ (ih key v h)

theorem topHist_wf (o : OverlayedChanges) (hI : OverlayInv o) (k : Bytes)
    (h : History OverlayedValue) (hl : lookupA o.changes.top k = some h) :
    HistOk o.changes.history h :=
  hI.2.2.1 (k, h) (lookupA_mem o.changes.top k h hl)

theorem childHist_wf (o : OverlayedChanges) (hI : OverlayInv o) (sk k : Bytes)
    (m : List (Bytes × History OverlayedValue)) (h : History OverlayedValue)
    (hm : lookupA o.changes.children sk = some m) (hl : lookupA m k = some h) :
    HistOk o.changes.history h :=
  hI.2.2.2 (sk, m) (lookupA_mem o.changes.children sk m hm) (k, h)
    (lookupA_mem m k h hl)

theorem tagsBelow_topListAt (o : OverlayedChanges) (hI : OverlayInv o) (k : Bytes) :
    tagsBelow o.changes.history.length (topListAt o k) := by
  cases hl : lookupA o.changes.top k with
  | none => simp [topListAt, hl, tagsBelow]
  | some h =>
    have := (topHist_wf o hI k h hl).2.1
    simpa [topListAt, hl] using this

theorem tagsBelow_childListAt (o : OverlayedChanges) (hI : OverlayInv o)
    (sk k : Bytes) : tagsBelow o.changes.history.length (childListAt o sk k) := by
  cases hm : lookupA o.changes.children sk with
  | none => simp [childListAt, hm, lookupA, tagsBelow]
  | some m =>
    cases hl : lookupA m k with
    | none => simp [childListAt, hm, hl, tagsBelow]
    | some h =>
      have := (childHist_wf o hI sk k m h hm hl).2.1
      simpa [childListAt, hm, hl] using this

theorem storage_eq_lGet (o : OverlayedChanges) (hI : OverlayInv o) (k : Bytes) :
    o.storage k =
      (lGet o.changes.history (topListAt o k).reverse).map (fun ov => ov.value) := by
  cases hlk : lookupA o.changes.top k with
  | none => simp [OverlayedChanges.storage, hlk, topListAt, lGet]
  | some h =>
    have hok := topHist_wf o hI k h hlk
    have hg := History.get_eq h hok.1 o.changes.history
    have htl : topListAt o k = h.toList := by simp [topListAt, hlk]
    rw [htl, ← hg]
    cases hget : h.get o.changes.history with
    | none => simp [OverlayedChanges.storage, hlk, hget]
    | some ov => simp [OverlayedChanges.storage, hlk, hget]

theorem child_storage_eq_lGet (o : OverlayedChanges) (hI : OverlayInv o)
    (sk k : Bytes) :
    o.child_storage sk k =
      (lGet o.changes.history (childListAt o sk k).reverse).map (fun ov => ov.value) := by
  cases hm : lookupA o.changes.children sk with
  | none => simp [OverlayedChanges.child_storage, hm, childListAt, lGet]
  | some m =>
    cases hlk : lookupA m k with
    | none => simp [OverlayedChanges.child_storage, hm, hlk, childListAt, lGet]
    | some h =>
      have hok := childHist_wf o hI sk k m h hm hlk
      have hg := History.get_eq h hok.1 o.changes.history
      have htl : childListAt o sk k = h.toList := by simp [childListAt, hm, hlk]
      rw [htl, ← hg]
      cases hget : h.get o.changes.history with
      | none => simp [OverlayedChanges.child_storage, hm, hlk, hget]
      | some ov => simp [OverlayedChanges.child_storage, hm, hlk, hget]

theorem discardT_history (cs : OverlayedChangeSet) (H0 : List TransactionState)
    (hh : cs.history = H0 ++ [TransactionState.TxPending]) :
    (cs.discard_transaction).history =
      H0 ++ [TransactionState.Dropped, TransactionState.Pending] := by
  show (discardTGo cs.history.reverse).reverse ++ [TransactionState.Pending] = _
  rw [hh, List.reverse_append]
  simp [discardTGo]

theorem lookupA_map_cond {β : Type} (m : List (Bytes × β)) (c : Bytes → Bool)
    (f : β → β) (k : Bytes) :
    lookupA (m.map (fun p => if c p.1 then (p.1, f p.2) else p)) k =
      if c k then (lookupA m k).map f else lookupA m k := by
  induction m with
  | nil => simp [lookupA]
  | cons hd t ih =>
    obtain ⟨k2, v⟩ := hd
    rw [List.map_cons]
    by_cases hk : k = k2
    · subst hk
      by_cases hc : c k = true
      · have hhead : (if c k = true then (k, f v) else (k, v)) = (k, f v) := if_pos hc
        rw [hhead, if_pos hc, lookupA, if_pos rfl, lookupA, if_pos rfl]
        rfl
      · have hhead : (if c k = true then (k, f v) else (k, v)) = (k, v) := if_neg hc
        rw [hhead, if_neg hc, lookupA, if_pos rfl, lookupA, if_pos rfl]
    · by_cases hc2 : c k2 = true
      · have hhead : (if c k2 = true then (k2, f v) else (k2, v)) = (k2, f v) :=
          if_pos hc2
        rw [hhead, lookupA, if_neg hk, ih, lookupA, if_neg hk]
      · have hhead : (if c k2 = true then (k2, f v) else (k2, v)) = (k2, v) :=
          if_neg hc2
        rw [hhead, lookupA, if_neg hk, ih, lookupA, if_neg hk]

theorem lookupA_map_snd {α β : Type} [DecidableEq α] (m : List (α × β)) (f : β → β)
    (k : α) :
    lookupA (m.map (fun p => (p.1, f p.2))) k = (lookupA m k).map f := by
  induction m with
  | nil => rfl
  | cons hd t ih =>
    obtain ⟨k2, v⟩ := hd
    by_cases hk : k = k2
    · subst hk
      simp [lookupA]
    · simp [lookupA, hk, ih]

theorem lookup_getD_wf (o : OverlayedChanges) (hI : OverlayInv o) (k : Bytes) :
    ((lookupA o.changes.top k).getD History.empty).wf := by
  cases hl : lookupA o.changes.top k with
  | none => simpa using History.empty_wf
  | some h => simpa using (topHist_wf o hI k h hl).1

theorem topListAt_eq_getD (o : OverlayedChanges) (k : Bytes) :
    topListAt o k = ((lookupA o.changes.top k).getD History.empty).toList := by
  cases hl : lookupA o.changes.top k <;>
    simp [topListAt, hl, History.empty_toList]

theorem childLookup_getD_wf (s : OverlayedChanges) (hIs : OverlayInv s) (sk k : Bytes) :
    ((lookupA ((lookupA s.changes.children sk).getD []) k).getD History.empty).wf := by
  cases hm : lookupA s.changes.children sk with
  | none => simpa [lookupA] using (History.empty_wf :
      (History.empty : History OverlayedValue).wf)
  | some m =>
    simp only [Option.getD_some]
    cases hl : lookupA m k with
    | none => simpa using (History.empty_wf : (History.empty : History OverlayedValue).wf)
    | some h => simpa using (childHist_wf s hIs sk k m h hm hl).1

theorem childListAt_eq_getD (o : OverlayedChanges) (sk k : Bytes) :
    childListAt o sk k =
      ((lookupA ((lookupA o.changes.children sk).getD []) k).getD History.empty).toList := by
  cases hm : lookupA o.changes.children sk with
  | none => simp [childListAt, hm, lookupA, History.empty_toList]
  | some m =>
    cases hl : lookupA m k <;> simp [childListAt, hm, hl, History.empty_toList]

theorem topListAt_set_storage (s : OverlayedChanges) (hIs : OverlayInv s)
    (key : Bytes) (val : Option Bytes) (k : Bytes) :
    topListAt (s.set_storage key val) k =
      if k = key then
        lSetG s.changes.history (sweMk val s.extrinsic_index) (topListAt s key)
      else topListAt s k := by
  have hupd : lookupA (s.set_storage key val).changes.top k =
      if k = key then
        some (((lookupA s.changes.top key).getD History.empty).set_with_extrinsic
          s.changes.history val s.extrinsic_index)
      else lookupA s.changes.top k := by
    show lookupA (updEntry s.changes.top key History.empty _) k = _
    rw [lookupA_updEntry]
  by_cases hk : k = key
  · rw [topListAt, hupd, if_pos hk, if_pos hk]
    simp only [Option.map_some', Option.getD_some]
    have hwf := lookup_getD_wf s hIs key
    rw [(History.swe_spec _ hwf s.changes.history val s.extrinsic_index).1,
      topListAt_eq_getD]
  · rw [topListAt, hupd, if_neg hk, if_neg hk, topListAt]

theorem topListAt_clearPrefixes (s : OverlayedChanges) (hIs : OverlayInv s)
    (pre k : Bytes) :
    topListAt (s.clearPrefixes pre) k = topListAt s k ∨
    topListAt (s.clearPrefixes pre) k =
      lSetG s.changes.history (sweMk none s.extrinsic_index) (topListAt s k) := by
  have hupd : lookupA (s.clearPrefixes pre).changes.top k =
      if startsWith pre k then
        (lookupA s.changes.top k).map
          (fun h => h.set_with_extrinsic s.changes.history none s.extrinsic_index)
      else lookupA s.changes.top k :=
    lookupA_map_cond s.changes.top (startsWith pre)
      (fun h => h.set_with_extrinsic s.changes.history none s.extrinsic_index) k
  by_cases hc : startsWith pre k = true
  · cases hl : lookupA s.changes.top k with
    | none =>
      left
      rw [topListAt, hupd, if_pos hc, hl, topListAt, hl]
      rfl
    | some h =>
      right
      rw [topListAt, hupd, if_pos hc, hl]
      simp only [Option.map_some', Option.getD_some]
      have hwf := (topHist_wf s hIs k h hl).1
      rw [(History.swe_spec h hwf s.changes.history none s.extrinsic_index).1]
      simp [topListAt, hl]
  · left
    rw [topListAt, hupd, if_neg hc, topListAt]

theorem childListAt_set_child (s : OverlayedChanges) (hIs : OverlayInv s)
    (sk key : Bytes) (val : Option Bytes) (sk2 k : Bytes) :
    childListAt (s.set_child_storage sk key val) sk2 k =
      (if sk2 = sk ∧ k = key then
        lSetG s.changes.history (sweMk val s.extrinsic_index) (childListAt s sk key)
      else childListAt s sk2 k) := by
  have houter : lookupA (s.set_child_storage sk key val).changes.children sk2 =
      if sk2 = sk then
        some (updEntry ((lookupA s.changes.children sk).getD []) key History.empty
          (fun entry => entry.set_with_extrinsic s.changes.history val s.extrinsic_index))
      else lookupA s.changes.children sk2 := by
    show lookupA (updEntry s.changes.children sk [] _) sk2 = _
    rw [lookupA_updEntry]
  by_cases hsk : sk2 = sk
  · rw [childListAt, houter, if_pos hsk]
    simp only [Option.getD_some]
    rw [lookupA_updEntry]
    by_cases hk : k = key
    · rw [if_pos hk, if_pos (by exact ⟨hsk, hk⟩)]
      simp only [Option.map_some', Option.getD_some]
      have hwf := childLookup_getD_wf s hIs sk key
      rw [(History.swe_spec _ hwf s.changes.history val s.extrinsic_index).1,
        childListAt_eq_getD]
    · rw [if_neg hk, if_neg (by intro hc; exact hk hc.2), childListAt, hsk]
  · rw [childListAt, houter, if_neg hsk, if_neg (by intro hc; exact hsk hc.1),
      childListAt]

theorem childListAt_clear_child (s : OverlayedChanges) (hIs : OverlayInv s)
    (sk sk2 k : Bytes) :
    childListAt (s.clear_child_storage sk) sk2 k = childListAt s sk2 k ∨
    childListAt (s.clear_child_storage sk) sk2 k =
      lSetG s.changes.history (sweMk none s.extrinsic_index) (childListAt s sk2 k) := by
  have houter : lookupA (s.clear_child_storage sk).changes.children sk2 =
      if sk2 = sk then
        some (((lookupA s.changes.children sk).getD []).map (fun p =>
          (p.1, p.2.set_with_extrinsic s.changes.history none s.extrinsic_index)))
      else lookupA s.changes.children sk2 := by
    show lookupA (updEntry s.changes.children sk [] _) sk2 = _
    rw [lookupA_updEntry]
  by_cases hsk : sk2 = sk
  · rw [childListAt, houter, if_pos hsk]
    simp only [Option.getD_some]
    rw [lookupA_map_snd ((lookupA s.changes.children sk).getD [])
      (fun h => h.set_with_extrinsic s.changes.history none s.extrinsic_index) k]
    cases hl : lookupA ((lookupA s.changes.children sk).getD []) k with
    | none =>
      left
      rw [childListAt_eq_getD, hsk, hl]
      rfl
    | some h =>
      right
      simp only [Option.map_some', Option.getD_some]
      have hwf : h.wf := by
        have := childLookup_getD_wf s hIs sk k
        rwa [hl] at this
      rw [(History.swe_spec h hwf s.changes.history none s.extrinsic_index).1,
        childListAt_eq_getD, hsk, hl]
      rfl
  · left
    rw [childListAt, houter, if_neg hsk, childListAt]

/-- Mid-transaction relation between the state `o` just before
`start_transaction` and the state `s` after the transaction's writes. -/
def WMid (o s : OverlayedChanges) : Prop :=
  s.changes.history = o.changes.history ++ [TransactionState.TxPending] ∧
  OverlayInv s ∧
  (∀ k, TxRel o.changes.history (topListAt o k) (topListAt s k)) ∧
  (∀ sk k, TxRel o.changes.history (childListAt o sk k) (childListAt s sk k))

theorem WMid_start (o : OverlayedChanges) (hI : OverlayInv o) :
    WMid o o.start_transaction :=
  ⟨rfl, inv_applyOp o Op.startTx hI, fun k => TxRel_refl _ (topListAt o k),
    fun sk k => TxRel_refl _ (childListAt o sk k)⟩

theorem WMid_step (o s : OverlayedChanges) (hI : OverlayInv o) (hm : WMid o s)
    (w : WOp) : WMid o (applyOp s w.toOp) := by
  obtain ⟨hh, hIs, htop, hch⟩ := hm
  have hinv2 : OverlayInv (applyOp s w.toOp) := inv_applyOp s _ hIs
  cases w with
  | wSet key val =>
    refine ⟨hh, hinv2, ?_, hch⟩
    intro k
    show TxRel o.changes.history (topListAt o k) (topListAt (s.set_storage key val) k)
    rw [topListAt_set_storage s hIs key val k]
    by_cases hk : k = key
    · rw [if_pos hk, hh]
      subst hk
      exact TxRel_lSetG o.changes.history _ _ (htop k)
        (tagsBelow_topListAt o hI k) _
    · rw [if_neg hk]
      exact htop k
  | wSetChild sk key val =>
    refine ⟨hh, hinv2, htop, ?_⟩
    intro sk2 k
    show TxRel o.changes.history (childListAt o sk2 k)
      (childListAt (s.set_child_storage sk key val) sk2 k)
    rw [childListAt_set_child s hIs sk key val sk2 k]
    by_cases hb : sk2 = sk ∧ k = key
    · rw [if_pos hb, hh]
      obtain ⟨h1, h2⟩ := hb
      subst h1
      subst h2
      exact TxRel_lSetG o.changes.history _ _ (hch sk2 k)
        (tagsBelow_childListAt o hI sk2 k) _
    · rw [if_neg hb]
      exact hch sk2 k
  | wClearChild sk =>
    refine ⟨hh, hinv2, htop, ?_⟩
    intro sk2 k
    show TxRel o.changes.history (childListAt o sk2 k)
      (childListAt (s.clear_child_storage sk) sk2 k)
    rcases childListAt_clear_child s hIs sk sk2 k with hcase | hcase
    · rw [hcase]
      exact hch sk2 k
    · rw [hcase, hh]
      exact TxRel_lSetG o.changes.history _ _ (hch sk2 k)
        (tagsBelow_childListAt o hI sk2 k) _
  | wClearPre pre =>
    refine ⟨hh, hinv2, ?_, hch⟩
    intro k
    show TxRel o.changes.history (topListAt o k) (topListAt (s.clearPrefixes pre) k)
    rcases topListAt_clearPrefixes s hIs pre k with hcase | hcase
    · rw [hcase]
      exact htop k
    · rw [hcase, hh]
      exact TxRel_lSetG o.changes.history _ _ (htop k)
        (tagsBelow_topListAt o hI k) _

theorem WMid_steps (o : OverlayedChanges) (hI : OverlayInv o) :
    ∀ (w : List WOp) (s : OverlayedChanges), WMid o s → WMid o (applyWOps s w) := by
  intro w
  induction w with
  | nil => intro s h; exact h
  | cons x t ih => intro s h; exact ih _ (WMid_step o s hI h x)

/-- C2: for every reachable overlay state (generated by any sequence `l` of
public operations from the default overlay) and every sequence `w` of write
operations (set_storage, set_child_storage, clear_prefix,
clear_child_storage), executing `start_transaction`, then the writes, then
`discard_transaction` leaves the result of `storage` (and `child_storage`)
on every key equal to what it was immediately before the
`start_transaction`. -/
theorem C2_discard_transaction_restores (l : List Op) (w : List WOp)
    (k sk ck : Bytes) :
    ((applyWOps ((applyOps OverlayedChanges.default l).start_transaction)
        w).discard_transaction).storage k =
      (applyOps OverlayedChanges.default l).storage k ∧
    ((applyWOps ((applyOps OverlayedChanges.default l).start_transaction)
        w).discard_transaction).child_storage sk ck =
      (applyOps OverlayedChanges.default l).child_storage sk ck := by
  have hI : OverlayInv (applyOps OverlayedChanges.default l) := inv_reach l
  have hmid := WMid_steps (applyOps OverlayedChanges.default l) hI w _
    (WMid_start (applyOps OverlayedChanges.default l) hI)
  obtain ⟨hh, hIs, htop, hch⟩ := hmid
  have hdh : ((applyWOps ((applyOps OverlayedChanges.default l).start_transaction)
      w).discard_transaction).changes.history =
      (applyOps OverlayedChanges.default l).changes.history ++
        [TransactionState.Dropped, TransactionState.Pending] :=
    discardT_history _ _ hh
  have hId : OverlayInv ((applyWOps ((applyOps OverlayedChanges.default
      l).start_transaction) w).discard_transaction) :=
    inv_applyOp _ Op.discardTx hIs
  constructor
  · rw [storage_eq_lGet _ hId k, storage_eq_lGet _ hI k]
    have htle : topListAt ((applyWOps ((applyOps OverlayedChanges.default
        l).start_transaction) w).discard_transaction) k =
        topListAt (applyWOps ((applyOps OverlayedChanges.default
          l).start_transaction) w) k := rfl
    rw [htle, hdh,
      TxRel_lGet (applyOps OverlayedChanges.default l).changes.history _ _
        (htop k) (tagsBelow_topListAt _ hI k)]
  · rw [child_storage_eq_lGet _ hId sk ck, child_storage_eq_lGet _ hI sk ck]
    have htle : childListAt ((applyWOps ((applyOps OverlayedChanges.default
        l).start_transaction) w).discard_transaction) sk ck =
        childListAt (applyWOps ((applyOps OverlayedChanges.default
          l).start_transaction) w) sk ck := rfl
    rw [htle, hdh,
      TxRel_lGet (applyOps OverlayedChanges.default l).changes.history _ _
        (hch sk ck) (tagsBelow_childListAt _ hI sk ck)]

/-!
The claims.
-/

/-- C3: after every sequence of public operations starting from the default
overlay, the history vector is non-empty and its last element is `Pending`
or `TxPending`; every `history_index` stored in any value-history entry (top
or child) is strictly less than the history vector's length; within any
single value history the `history_index` values are non-decreasing from
oldest to newest; and at most one entry per value history has
`history_index` equal to the current (last) layer. -/
theorem C3_history_invariants (l : List Op) :
    (applyOps OverlayedChanges.default l).changes.history ≠ [] ∧
    ((applyOps OverlayedChanges.default l).changes.history.getLast? =
        some TransactionState.Pending ∨
      (applyOps OverlayedChanges.default l).changes.history.getLast? =
        some TransactionState.TxPending) ∧
    (∀ p ∈ (applyOps OverlayedChanges.default l).changes.top,
      tagsBelow (applyOps OverlayedChanges.default l).changes.history.length
          p.2.toList ∧
        tagsMono p.2.toList ∧
        p.2.toList.countP (fun e =>
          e.2 == (applyOps OverlayedChanges.default l).changes.history.length - 1)
          ≤ 1) ∧
    (∀ c ∈ (applyOps OverlayedChanges.default l).changes.children, ∀ p ∈ c.2,
      tagsBelow (applyOps OverlayedChanges.default l).changes.history.length
          p.2.toList ∧
        tagsMono p.2.toList ∧
        p.2.toList.countP (fun e =>
          e.2 == (applyOps OverlayedChanges.default l).changes.history.length - 1)
          ≤ 1) := by
  obtain ⟨hne, hlast, htop, hch⟩ := inv_reach l
  exact ⟨hne, hlast,
    fun p hp => ⟨(htop p hp).2.1, (htop p hp).2.2.1, (htop p hp).2.2.2⟩,
    fun c hc p hp =>
      ⟨(hch c hc p hp).2.1, (hch c hc p hp).2.2.1, (hch c hc p hp).2.2.2⟩⟩

/-- Witness for C3 at a concrete operation sequence, with the membership
hypothesis discharged on a concrete stored value history. -/
theorem C3_history_invariants_witness :
    tagsBelow (applyOps OverlayedChanges.default
        [Op.setStorage [1] (some [2]), Op.startTx]).changes.history.length
      (History.mk 1 (some ((⟨some [2], none⟩ : OverlayedValue), 0)) none []).toList ∧
    tagsMono (History.mk 1 (some ((⟨some [2], none⟩ : OverlayedValue), 0)) none
      []).toList ∧
    (History.mk 1 (some ((⟨some [2], none⟩ : OverlayedValue), 0)) none
      []).toList.countP (fun e =>
        e.2 == (applyOps OverlayedChanges.default
          [Op.setStorage [1] (some [2]), Op.startTx]).changes.history.length - 1) ≤ 1 :=
  (C3_history_invariants [Op.setStorage [1] (some [2]), Op.startTx]).2.2.1
    ([1], History.mk 1 (some ((⟨some [2], none⟩ : OverlayedValue), 0)) none [])
    (by decide)

/-- The specification's reading of `into_committed` on a value history
(newest-first entry list): the value of the newest entry whose marker in `H`
is exactly `Committed`, skipping entries whose markers are `Pending`,
`TxPending`, `Prospective` or `Dropped`. -/
def newestCommitted {V : Type} (H : List TransactionState) :
    List (V × Nat) → Option V
  | [] => none
  | e :: t =>
    match H.get? e.2 with
    | some TransactionState.Committed => some e.1
    | _ => newestCommitted H t

/-- C1 (code bug): after writing `[1]`, then `[2]`, `[3]`, `[4]` inside three
nested transactions, discarding the innermost transaction and committing the
prospective set, the key's history holds entries tagged `0..3` and the
history vector is `[C, C, C, Dropped, C, Pending]`.  `into_committed` of the
overlay then yields `[4]` — the value of the *dropped* layer-3 entry —
because `History::truncate` shrinks the spill buffer to `index` instead of
`index - ALLOCATED_HISTORY` elements, so the following `pop` returns the
wrong slot.  The newest entry whose marker is exactly `Committed` carries
`[3]`, as the specification demands (also visible through `storage`). -/
theorem C1_into_committed_dropped_value :
    (applyOps OverlayedChanges.default
        [Op.setStorage [42] (some [1]), Op.startTx, Op.setStorage [42] (some [2]),
         Op.startTx, Op.setStorage [42] (some [3]), Op.startTx,
         Op.setStorage [42] (some [4]), Op.discardTx,
         Op.commitPros]).into_committed_top = [([42], some [4])] ∧
    (match lookupA (applyOps OverlayedChanges.default
        [Op.setStorage [42] (some [1]), Op.startTx, Op.setStorage [42] (some [2]),
         Op.startTx, Op.setStorage [42] (some [3]), Op.startTx,
         Op.setStorage [42] (some [4]), Op.discardTx,
         Op.commitPros]).changes.top [42] with
      | some h => (newestCommitted (applyOps OverlayedChanges.default
          [Op.setStorage [42] (some [1]), Op.startTx, Op.setStorage [42] (some [2]),
           Op.startTx, Op.setStorage [42] (some [3]), Op.startTx,
           Op.setStorage [42] (some [4]), Op.discardTx,
           Op.commitPros]).changes.history h.toList.reverse).map (fun ov => ov.value)
      | none => none) = some (some [3]) ∧
    (applyOps OverlayedChanges.default
        [Op.setStorage [42] (some [1]), Op.startTx, Op.setStorage [42] (some [2]),
         Op.startTx, Op.setStorage [42] (some [3]), Op.startTx,
         Op.setStorage [42] (some [4]), Op.discardTx,
         Op.commitPros]).storage [42] = some (some [3]) ∧
    ([([42], some [4])] : List (Bytes × Option Bytes)) ≠ [([42], some [3])] := by
  exact ⟨by decide, by decide, by decide, by decide⟩

/-- C4 (code bug): on a four-entry history (two inline slots, two spill
entries), `truncate 3` keeps both spill entries and sets the length to 3, so
the subsequent `pop` returns the former index-3 entry `(13, 3)` instead of
the index-2 entry `(12, 2)` that the first-`min(n, len)`-entries reading
demands; moreover `truncate` sets `length` to its argument even when the
argument exceeds the current length. -/
theorem C4_truncate_spill_mismatch :
    (((((((History.empty : History Nat).push 10 0).push 11 1).push 12 2).push
        13 3).truncate 3).pop).1 = some (13, 3) ∧
    ((((((History.empty : History Nat).push 10 0).push 11 1).push 12 2).push
        13 3).toList.take 3).getLast? = some (12, 2) ∧
    (some ((13 : Nat), (3 : Nat)) ≠ some (12, 2)) ∧
    ((((((History.empty : History Nat).push 10 0).push 11 1).push 12 2).push
        13 3).truncate 3).dyn_content.length = 2 ∧
    ((History.empty : History Nat).truncate 5).length = 5 := by
  exact ⟨by decide, by decide, by decide, by decide, by decide⟩

/-- C5: when the changes-trie configuration is installed every write goes
through `set_with_extrinsic_inner` (first conjunct), and on a well-formed
history that write behaves in exactly one of two ways after compacting the
`Dropped` tail: if the newest visible entry is tagged with the current layer
(`history_index = |H| - 1`), its value is replaced in place and the current
extrinsic index is inserted into its extrinsic set (allocating the set when
it was `None`); otherwise the prior visible entry's extrinsic set (empty
when there is none) is cloned, the extrinsic index added, and a new entry
tagged with the current layer is pushed carrying the new value and the
enlarged set. -/
theorem C5_extrinsic_write (h : History OverlayedValue) (hw : h.wf)
    (H : List TransactionState) (val : Option Bytes) (ei : Nat) :
    h.set_with_extrinsic H val (some ei) = h.set_with_extrinsic_inner H val ei ∧
    (h.set_with_extrinsic_inner H val ei).toList =
      (match visScan H h.toList.reverse with
       | (some cur, r) =>
         if cur.2 = H.length - 1 then
           r.reverse.dropLast ++
             [(⟨val, some (insert ei (cur.1.extrinsics.getD ∅))⟩, cur.2)]
         else
           r.reverse ++
             [(⟨val, some (insert ei (cur.1.extrinsics.getD ∅))⟩, H.length - 1)]
       | (none, r) =>
         r.reverse ++ [(⟨val, some (insert ei ∅)⟩, H.length - 1)]) := by
  refine ⟨rfl, ?_⟩
  rw [(History.inner_spec h hw H val ei).1]
  rcases hv : visScan H h.toList.reverse with ⟨vf, r⟩
  cases vf with
  | none =>
    rw [lSetG_eq_none _ _ _ _ hv]
    rfl
  | some cur =>
    rw [lSetG_eq_found _ _ _ _ _ hv]
    by_cases hc : cur.2 = H.length - 1
    · rw [if_pos hc]
      show _ = (if cur.2 = H.length - 1 then _ else _)
      rw [if_pos hc]
      rfl
    · rw [if_neg hc]
      show _ = (if cur.2 = H.length - 1 then _ else _)
      rw [if_neg hc]
      rfl

/-- Witness for C5: a one-entry well-formed history whose entry is tagged
with the current layer of `[Pending]`; the write replaces the value in place
and allocates the extrinsic set. -/
theorem C5_extrinsic_write_witness :
    (History.mk 1 (some ((⟨some [9], none⟩ : OverlayedValue), 0)) none []
      : History OverlayedValue).wf ∧
    ((History.mk 1 (some ((⟨some [9], none⟩ : OverlayedValue), 0)) none []
        : History OverlayedValue).set_with_extrinsic_inner
        [TransactionState.Pending] (some [7]) 5).toList =
      [((⟨some [7], some (insert 5 ∅)⟩ : OverlayedValue), 0)] :=
  ⟨Or.inr (Or.inl ⟨(⟨some [9], none⟩, 0), rfl, rfl, rfl⟩),
    (C5_extrinsic_write _
      (Or.inr (Or.inl ⟨(⟨some [9], none⟩, 0), rfl, rfl, rfl⟩))
      [TransactionState.Pending] (some [7]) 5).2⟩

/-- C6: on every reachable overlay state, `storage key` is `none` (Unknown)
when the key is absent from the top map, and otherwise equals the
newest-to-oldest scan `lGet` of the key's entry list, which skips entries
with `Dropped` markers and stops at the first entry marked `Pending`,
`TxPending`, `Prospective` or `Committed`; the scan yields `some none`
(Known-deleted) when the newest visible value is a deletion, `some (some
bytes)` when it is a value, and `none` (Unknown) when every entry is
dropped. -/
theorem C6_storage_tristate (l : List Op) (key : Bytes) :
    (applyOps OverlayedChanges.default l).storage key =
      match lookupA (applyOps OverlayedChanges.default l).changes.top key with
      | none => none
      | some h =>
        (lGet (applyOps OverlayedChanges.default l).changes.history
          h.toList.reverse).map (fun ov => ov.value) := by
  have hI := inv_reach l
  cases hlk : lookupA (applyOps OverlayedChanges.default l).changes.top key with
  | none => simp [OverlayedChanges.storage, hlk]
  | some h =>
    rw [storage_eq_lGet _ hI key]
    simp [topListAt, hlk]

/-- C7: `set_changes_trie_config` installs the configuration and returns
`true` when none is installed; reinstalling an equal configuration returns
`true` and leaves the state unchanged (idempotent); a different
configuration is rejected with `false` and the entire overlay state,
including the stored configuration, is unchanged. -/
theorem C7_set_changes_trie_config (o : OverlayedChanges) (cfg : ChangesTrieConfig) :
    (o.changes_trie_config = none →
      o.set_changes_trie_config cfg =
        (true, { o with changes_trie_config := some cfg })) ∧
    (o.changes_trie_config = some cfg → o.set_changes_trie_config cfg = (true, o)) ∧
    (∀ old, o.changes_trie_config = some old → old ≠ cfg →
      o.set_changes_trie_config cfg = (false, o)) := by
  refine ⟨?_, ?_, ?_⟩
  · intro h
    simp [OverlayedChanges.set_changes_trie_config, h]
  · intro h
    obtain ⟨ch, ctc⟩ := o
    simp at h
    subst h
    simp [OverlayedChanges.set_changes_trie_config]
  · intro old h hne
    simp [OverlayedChanges.set_changes_trie_config, h, hne]

/-- Witness for C7 on concrete configurations: fresh install, idempotent
reinstall, and rejected incompatible reconfiguration. -/
theorem C7_set_changes_trie_config_witness :
    (OverlayedChanges.default.set_changes_trie_config ⟨4, 1⟩ =
      (true, (⟨OverlayedChangeSet.default, some ⟨4, 1⟩⟩ : OverlayedChanges))) ∧
    ((⟨OverlayedChangeSet.default, some ⟨4, 1⟩⟩ :
        OverlayedChanges).set_changes_trie_config ⟨4, 1⟩ =
      (true, (⟨OverlayedChangeSet.default, some ⟨4, 1⟩⟩ : OverlayedChanges))) ∧
    ((⟨OverlayedChangeSet.default, some ⟨4, 1⟩⟩ :
        OverlayedChanges).set_changes_trie_config ⟨2, 1⟩ =
      (false, (⟨OverlayedChangeSet.default, some ⟨4, 1⟩⟩ : OverlayedChanges))) :=
  ⟨(C7_set_changes_trie_config OverlayedChanges.default ⟨4, 1⟩).1 rfl,
    (C7_set_changes_trie_config _ ⟨4, 1⟩).2.1 rfl,
    (C7_set_changes_trie_config _ ⟨2, 1⟩).2.2 ⟨4, 1⟩ rfl (by decide)⟩

/-- C8: the current-extrinsic-index computation returns no index when
`changes_trie_config` is `None`; otherwise it reads the reserved key
`EXTRINSIC_INDEX` from the top overlay and returns the decoded 32-bit
integer when the value is present and decodable, and `NO_EXTRINSIC_INDEX`
when the key is absent, reports deletion, or the bytes are undecodable — a
decode failure is never surfaced as an error (the function is total and
always yields `some _` when a configuration is installed). -/
theorem C8_extrinsic_index_fallback (o : OverlayedChanges) :
    o.extrinsic_index =
      match o.changes_trie_config with
      | none => none
      | some _ =>
        some (match o.storage EXTRINSIC_INDEX with
          | some (some bytes) => (decode_u32 bytes).getD NO_EXTRINSIC_INDEX
          | some none => NO_EXTRINSIC_INDEX
          | none => NO_EXTRINSIC_INDEX) := by
  cases hc : o.changes_trie_config with
  | none => simp [OverlayedChanges.extrinsic_index, hc]
  | some c =>
    cases hs : o.storage EXTRINSIC_INDEX with
    | none => simp [OverlayedChanges.extrinsic_index, hc, hs]
    | some v =>
      cases v with
      | none => simp [OverlayedChanges.extrinsic_index, hc, hs]
      | some bytes => simp [OverlayedChanges.extrinsic_index, hc, hs]

/-- C9: each of the five layer-control operations mutates only the history
vector — the top map, the children map (hence every value-history entry
stored in them) and the changes-trie configuration are unchanged. -/
theorem C9_layer_ops_frame (o : OverlayedChanges) :
    ((o.start_transaction).changes.top = o.changes.top ∧
      (o.start_transaction).changes.children = o.changes.children ∧
      (o.start_transaction).changes_trie_config = o.changes_trie_config) ∧
    ((o.commit_transaction).changes.top = o.changes.top ∧
      (o.commit_transaction).changes.children = o.changes.children ∧
      (o.commit_transaction).changes_trie_config = o.changes_trie_config) ∧
    ((o.discard_transaction).changes.top = o.changes.top ∧
      (o.discard_transaction).changes.children = o.changes.children ∧
      (o.discard_transaction).changes_trie_config = o.changes_trie_config) ∧
    ((o.commit_prospective).changes.top = o.changes.top ∧
      (o.commit_prospective).changes.children = o.changes.children ∧
      (o.commit_prospective).changes_trie_config = o.changes_trie_config) ∧
    ((o.discard_prospective).changes.top = o.changes.top ∧
      (o.discard_prospective).changes.children = o.changes.children ∧
      (o.discard_prospective).changes_trie_config = o.changes_trie_config) :=
  ⟨⟨rfl, rfl, rfl⟩, ⟨rfl, rfl, rfl⟩, ⟨rfl, rfl, rfl⟩, ⟨rfl, rfl, rfl⟩,
    ⟨rfl, rfl, rfl⟩⟩

theorem updEntry_ne_nil {α β : Type} [DecidableEq α] (m : List (α × β)) (key : α)
    (d : β) (f : β → β) : updEntry m key d f ≠ [] := by
  cases m with
  | nil => simp [updEntry]
  | cons hd t =>
    obtain ⟨k2, v⟩ := hd
    rw [updEntry]
    by_cases hk : key = k2 <;> simp [hk]

/-- C10: `is_empty` is true exactly when both the top and children maps hold
no keys; no public operation ever removes a key from these maps, so once a
key has been written `is_empty` stays false even after the changes are
discarded — concretely, after `set_storage [1] (some [2])` followed by
`discard_prospective`, `is_empty` is `false` although `storage [1]` is
Unknown (`none`). -/
theorem C10_is_empty_monotone (o : OverlayedChanges) (op : Op) :
    (o.is_empty = true ↔ o.changes.top = [] ∧ o.changes.children = []) ∧
    ((applyOp o op).is_empty = true → o.is_empty = true) ∧
    ((OverlayedChanges.default.set_storage [1]
        (some [2])).discard_prospective.is_empty = false ∧
      (OverlayedChanges.default.set_storage [1]
        (some [2])).discard_prospective.storage [1] = none) := by
  have hempty : ∀ s : OverlayedChanges,
      s.is_empty = true ↔ s.changes.top = [] ∧ s.changes.children = [] := by
    intro s
    rw [OverlayedChanges.is_empty, OverlayedChangeSet.is_empty, Bool.and_eq_true,
      List.isEmpty_iff, List.isEmpty_iff]
  refine ⟨hempty o, ?_, by decide, by decide⟩
  intro hap
  cases op with
  | setStorage key val =>
    exact absurd ((hempty _).1 hap).1
      (updEntry_ne_nil o.changes.top key History.empty _)
  | setChildStorage sk key val =>
    exact absurd ((hempty _).1 hap).2
      (updEntry_ne_nil o.changes.children sk [] _)
  | clearChild sk =>
    exact absurd ((hempty _).1 hap).2
      (updEntry_ne_nil o.changes.children sk [] _)
  | clearPre pre =>
    have h1 := (hempty _).1 hap
    have hmap : o.changes.top.map (fun p => if startsWith pre p.1 then
        (p.1, p.2.set_with_extrinsic o.changes.history none o.extrinsic_index)
      else p) = [] := h1.1
    exact (hempty o).2 ⟨List.map_eq_nil.1 hmap, h1.2⟩
  | startTx => exact hap
  | commitTx => exact hap
  | discardTx => exact hap
  | commitPros => exact hap
  | discardPros => exact hap
  | setConfig c =>
    have h1 := (hempty _).1 hap
    have h2 : ((o.set_changes_trie_config c).2).changes.top = [] ∧
        ((o.set_changes_trie_config c).2).changes.children = [] := h1
    rw [setConfig_changes o c] at h2
    exact (hempty o).2 h2

/-- Witness for C10: the default overlay is empty, and the concrete
discard-after-write scenario is part of the theorem's conclusion. -/
theorem C10_is_empty_monotone_witness :
    OverlayedChanges.default.is_empty = true :=
  (C10_is_empty_monotone OverlayedChanges.default Op.startTx).1.mpr ⟨rfl, rfl⟩
